import Mathlib

/-!
boffset: binary file offset tool.

A shallow embedding of `src/boffset.c` (one function, `main`) and of the C
library calls it makes, over an explicit file-system state.

Conventions of the embedding (LP64: `int` is 32 bits, `long`, `long long`
and `size_t` are 64 bits):

* a file is its byte content together with two permission bits; a path names at
  most one file (no links), and a file that does not exist may or may not be
  creatable;
* file positions and sizes are natural numbers (no file reaches `2^63` bytes);
* `abs` takes an `int`: its `long long` argument is first reduced to 32 bits,
  and `abs(INT_MIN)` is undefined behaviour;
* reads and writes on an open stream do not fail;
* the local array `buffer` starts with indeterminate content, given to `main`
  as a function from index to byte.
-/

namespace Boffset

/-- One byte of a file or of the buffer. -/
abbrev Byte := Fin 256

/-- Block size of the copy loop: `#define BLOCKSIZE 4096`. -/
def BLOCKSIZE : Nat := 4096

/-! ## File system -/

/-- A regular file: content and whether the process may read and write it. -/
structure File where
  content : List Byte
  readable : Bool
  writable : Bool
deriving DecidableEq

/-- File-system state: the file at each path, and whether a file can be created
at a path that holds none. -/
structure FS where
  files : String → Option File
  creatable : String → Bool

/-- Replace (or create) the file at `path`. -/
def FS.store (fs : FS) (path : String) (f : File) : FS :=
  { fs with files := fun p => if p = path then some f else fs.files p }

/-- Mode string of an `fopen` call. -/
inductive Mode
  | rb
  | wb
deriving DecidableEq

/-- The call `fopen(path, "rb")`: the content to read, or `none` for `NULL`
(no file at the path, or a file the process may not read). -/
def fopen_rb (fs : FS) (path : String) : Option (List Byte) :=
  match fs.files path with
  | some f => if f.readable then some f.content else none
  | none => none

/-- The call `fopen(path, "wb")`: truncates a writable file to length zero, or
creates an empty file; `none` for `NULL`. -/
def fopen_wb (fs : FS) (path : String) : Option FS :=
  match fs.files path with
  | some f => if f.writable then some (fs.store path { f with content := [] }) else none
  | none =>
    if fs.creatable path then
      some (fs.store path { content := [], readable := true, writable := true })
    else none

/-- What `fclose` leaves at `path` once the stream written to it holds `out`. -/
def FS.flush (fs : FS) (path : String) (out : List Byte) : FS :=
  match fs.files path with
  | some f => fs.store path { f with content := out }
  | none => fs

/-! ## Integer conversions -/

/-- Largest `long long`. -/
def LLONG_MAX : Int := 2 ^ 63 - 1

/-- Smallest `long long`. -/
def LLONG_MIN : Int := -(2 ^ 63)

/-- Smallest `int`. -/
def INT_MIN : Int := -(2 ^ 31)

/-- Conversion of a `long long` to `int`: reduction modulo `2^32` into
`[-2^31, 2^31)`. -/
def toInt32 (x : Int) : Int := (x + 2 ^ 31) % 2 ^ 32 - 2 ^ 31

/-- The library function `int abs(int)` applied to a `long long`: the argument
is converted to `int` first; `none` is the undefined `abs(INT_MIN)`. -/
def abs (x : Int) : Option Int :=
  if toInt32 x = INT_MIN then none else some (Int.natAbs (toInt32 x))

/-! ## atoll -/

/-- The C `isspace` in the "C" locale: space and the controls 9 to 13. -/
def isspace (c : Char) : Bool := c.toNat = 32 || (9 ≤ c.toNat && c.toNat ≤ 13)

/-- The C `isdigit`. -/
def isdigit (c : Char) : Bool := 48 ≤ c.toNat && c.toNat ≤ 57

/-- Value of the longest run of decimal digits at the head of `cs`, continuing
the value `acc` read so far. -/
def digitsValue : List Char → Nat → Nat
  | [], acc => acc
  | c :: cs, acc =>
    if isdigit c then digitsValue cs (10 * acc + (c.toNat - 48)) else acc

/-- The library function `atoll`, as `strtoll(s, NULL, 10)`: leading white
space, an optional sign, then the longest run of digits; the rest is ignored,
no digit gives 0, and a value out of range is clamped. -/
def atoll (s : String) : Int :=
  match s.toList.dropWhile isspace with
  | '-' :: cs => max LLONG_MIN (-(digitsValue cs 0 : Int))
  | '+' :: cs => min LLONG_MAX (digitsValue cs 0 : Int)
  | cs => min LLONG_MAX (digitsValue cs 0 : Int)

/-! ## Streams -/

/-- The two open streams and the buffer during the copy. -/
structure State where
  /-- Position of `fi`. -/
  ipos : Nat
  /-- Bytes of the file behind `fo`. -/
  out : List Byte
  /-- Position of `fo`, the value of `ftell(fo)`. -/
  opos : Nat
  /-- Content of `buffer`. -/
  buffer : List Byte

/-- The file after the bytes `d` are written at position `pos`: a gap between
the end of the file and `pos` reads as zero, and writing nothing changes
nothing. -/
def writeAt (out : List Byte) (pos : Nat) (d : List Byte) : List Byte :=
  match d with
  | [] => out
  | _ :: _ =>
    let padded := out ++ List.replicate (pos - out.length) 0
    padded.take pos ++ d ++ padded.drop (pos + d.length)

/-- The call `fseek(f, pos, SEEK_SET)` on a stream at position `cur`: a negative
position fails and leaves the stream where it is. -/
def fseek (cur : Nat) (pos : Int) : Nat :=
  if pos < 0 then cur else pos.toNat

/-- The call `fread(buffer, 1, count, fi)`: the bytes read (up to the end of
the input) go to the start of the buffer, the rest of the buffer is kept. The
number of bytes read is returned with the new state. -/
def fread (inp : List Byte) (count : Nat) (s : State) : Nat × State :=
  let data := (inp.drop s.ipos).take count
  (data.length,
    { s with ipos := s.ipos + data.length, buffer := data ++ s.buffer.drop data.length })

/-- The call `fwrite(buffer, 1, count, fo)`. -/
def fwrite (count : Nat) (s : State) : State :=
  let d := s.buffer.take count
  { s with out := writeAt s.out s.opos d, opos := s.opos + d.length }

/-- The call `memset(buffer, 0, sizeof(buffer))`, the buffer being `B` bytes. -/
def memset (B : Nat) (s : State) : State :=
  { s with buffer := List.replicate B 0 }

/-- The indeterminate initial content of `char buffer[B]`. -/
def stackBuffer (garbage : Nat → Byte) : Nat → Nat → List Byte
  | 0, _ => []
  | n + 1, i => garbage i :: stackBuffer garbage n (i + 1)

/-! ## The program -/

/-- Why a run has no outcome. -/
inductive Fault
  /-- The C standard gives the run no meaning. -/
  | undefinedBehaviour
  /-- The iteration bound of the embedding was reached. -/
  | outOfFuel
deriving DecidableEq

/-- Lines written to `stderr`. -/
inductive Msg
  /-- Line `Usage: %s [+|-]<offset> <infile> <outfile>`. -/
  | usage (prog : String)
  /-- Line `Zero offset: Nothing to do`. -/
  | zeroOffset
  /-- Line of `perror("Fatal: Input file error")`. -/
  | inputFileError
  /-- Line `Fatal: Offset >= input file size`. -/
  | offsetTooLarge
  /-- Line `Fatal: Output file exists`. -/
  | outputFileExists
  /-- Line of `perror("Fatal: Output file error")`. -/
  | outputFileError
  /-- Line `Using offset: %lld bytes`. -/
  | usingOffset (offset : Int)
deriving DecidableEq

/-- What a run leaves behind. -/
structure Outcome where
  /-- Exit status. -/
  code : Int
  /-- Messages on `stderr`. -/
  stderr : List Msg
  /-- File system after the run. -/
  fs : FS
  /-- The `fopen` calls made, in order. -/
  opens : List (String × Mode)

/-- The copy loop, lines 106-112, with block size `B` and `fsize` the input
size. `fuel` bounds the number of iterations. In the first branch a negative
`fsize - ftell(fo)`, converted to `size_t`, would write far past the buffer. -/
def copyLoop (B : Nat) (inp : List Byte) (fsize : Nat) : Nat → State → Except Fault State
  | 0, _ => .error .outOfFuel
  | fuel + 1, s =>
    let r := fread inp B s
    if r.1 > 0 then
      if r.2.opos + B > fsize then
        if fsize < r.2.opos then .error .undefinedBehaviour
        else copyLoop B inp fsize fuel (fwrite (fsize - r.2.opos) r.2)
      else
        copyLoop B inp fsize fuel (fwrite r.1 r.2)
    else .ok s

/-- Lines 92-120: start padding or input skip, copy loop, end padding. The
result is the content of the output file. -/
def shift (B : Nat) (garbage : Nat → Byte) (inp : List Byte) (offset a : Int) :
    Except Fault (List Byte) :=
  let fsize := inp.length
  let s0 : State := { ipos := 0, out := [], opos := 0, buffer := stackBuffer garbage B 0 }
  let s1 : State :=
    if offset < 0 then
      let s := memset B s0
      fwrite 1 { s with opos := fseek s.opos (a - 1) }
    else
      { s0 with ipos := fseek s0.ipos offset }
  match copyLoop B inp fsize (fsize + 1) s1 with
  | .error e => .error e
  | .ok s2 =>
    if s2.opos < fsize then
      let s := memset B s2
      .ok (fwrite 1 { s with opos := fseek s.opos ((fsize : Int) - 1) }).out
    else .ok s2.out

/-- The function `main` with the block size as a parameter. `argv` holds the
`argc` arguments, program name first. -/
def mainB (B : Nat) (garbage : Nat → Byte) (argv : List String) (fs : FS) :
    Except Fault Outcome :=
  match argv with
  | [_, a1, a2, a3] =>
    let offset := atoll a1
    if offset = 0 then
      .ok { code := 0, stderr := [.zeroOffset], fs := fs, opens := [] }
    else
      match fopen_rb fs a2 with
      | none =>
        .ok { code := 1, stderr := [.inputFileError], fs := fs, opens := [(a2, .rb)] }
      | some inp =>
        match abs offset with
        | none => .error .undefinedBehaviour
        | some a =>
          if a ≥ (inp.length : Int) then
            .ok { code := 1, stderr := [.offsetTooLarge], fs := fs, opens := [(a2, .rb)] }
          else
            match fopen_rb fs a3 with
            | some _ =>
              .ok { code := 1, stderr := [.outputFileExists], fs := fs,
                    opens := [(a2, .rb), (a3, .rb)] }
            | none =>
              match fopen_wb fs a3 with
              | none =>
                .ok { code := 1, stderr := [.outputFileError], fs := fs,
                      opens := [(a2, .rb), (a3, .rb), (a3, .wb)] }
              | some fs1 =>
                match shift B garbage inp offset a with
                | .error e => .error e
                | .ok out =>
                  .ok { code := 0, stderr := [.usingOffset offset],
                        fs := fs1.flush a3 out,
                        opens := [(a2, .rb), (a3, .rb), (a3, .wb)] }
  | _ => .ok { code := 1, stderr := [.usage (argv.headD "")], fs := fs, opens := [] }

/-- The function `main` of `boffset.c`. -/
def main (garbage : Nat → Byte) (argv : List String) (fs : FS) : Except Fault Outcome :=
  mainB BLOCKSIZE garbage argv fs

/-- A file system holding one readable file, at `path`; any other path can be
created. -/
def FS.single (path : String) (content : List Byte) : FS :=
  { files := fun p => if p = path then some ⟨content, true, true⟩ else none
    creatable := fun _ => true }

/-- The output file of an outcome, if the run has one and it left a file at
`path`. -/
def outputOf (r : Except Fault Outcome) (path : String) : Option (List Byte) :=
  match r with
  | .ok o => (o.fs.files path).map File.content
  | .error _ => none

/-- The exit status of a run, if it has one. -/
def codeOf (r : Except Fault Outcome) : Option Int :=
  match r with
  | .ok o => some o.code
  | .error _ => none

/-- The `fopen` calls of a run, if it has an outcome. -/
def opensOf (r : Except Fault Outcome) : Option (List (String × Mode)) :=
  match r with
  | .ok o => some o.opens
  | .error _ => none

/-- The messages of a run, if it has an outcome. -/
def stderrOf (r : Except Fault Outcome) : Option (List Msg) :=
  match r with
  | .ok o => some o.stderr
  | .error _ => none

/-- The state in which the copy loop is entered (lines 96-104), as in `shift`. -/
def loopEntry (B : Nat) (garbage : Nat → Byte) (offset a : Int) : State :=
  let s0 : State := { ipos := 0, out := [], opos := 0, buffer := stackBuffer garbage B 0 }
  if offset < 0 then
    let s := memset B s0
    fwrite 1 { s with opos := fseek s.opos (a - 1) }
  else
    { s0 with ipos := fseek s0.ipos offset }

/-- The states at the loop test of lines 106-112, in order, from the state `s`
on: `copyLoop` with every state it goes through kept. -/
def loopStates (B : Nat) (inp : List Byte) (fsize : Nat) : Nat → State → List State
  | 0, s => [s]
  | fuel + 1, s =>
    let r := fread inp B s
    if r.1 > 0 then
      if r.2.opos + B > fsize then
        if fsize < r.2.opos then [s]
        else s :: loopStates B inp fsize fuel (fwrite (fsize - r.2.opos) r.2)
      else
        s :: loopStates B inp fsize fuel (fwrite r.1 r.2)
    else [s]

/-- A file of `2^32 + 10` bytes, each `0x01`. -/
def bigInput : List Byte := List.replicate (2 ^ 32 + 10) 1

/-- A file system with the readable file `in` and, at `out`, a file the process
may write but not read (mode 0200). -/
def writeOnlyOutput : FS :=
  { files := fun p =>
      if p = "in" then some ⟨[1, 2, 3, 4, 5, 6, 7, 8], true, true⟩
      else if p = "out" then some ⟨[9, 9], false, true⟩
      else none
    creatable := fun _ => true }

/-- A file system with a file at `out` and nothing at `missing`. -/
def outputOnly : FS :=
  { files := fun p => if p = "out" then some ⟨[7, 7, 7], true, true⟩ else none
    creatable := fun _ => true }

/-- A file system with a readable 10-byte file at `in` and a readable file at
`out`. -/
def inputAndOutput : FS :=
  { files := fun p =>
      if p = "in" then some ⟨[1, 2, 3, 4, 5, 6, 7, 8, 9, 10], true, true⟩
      else if p = "out" then some ⟨[7, 7, 7], true, true⟩
      else none
    creatable := fun _ => true }

/-- The characters of the offset argument at the position where `atoll` reads
digits: after the leading white space and one optional sign. -/
def digitPosition (s : String) : List Char :=
  match s.toList.dropWhile isspace with
  | '-' :: cs => cs
  | '+' :: cs => cs
  | cs => cs

/-- A file of 4104 bytes, one block and 8 bytes: `01` everywhere but for
`07 08 09` at indices 8, 9 and 10. -/
def twoBlockInput : List Byte := List.replicate 8 1 ++ [7, 8, 9] ++ List.replicate 4093 1

/-! ## Streams: basic facts -/

theorem stackBuffer_length (g : Nat → Byte) (n i : Nat) :
    (stackBuffer g n i).length = n := by
  induction n generalizing i with
  | zero => rfl
  | succ n ih => simp [stackBuffer, ih]

theorem writeAt_end (out d : List Byte) : writeAt out out.length d = out ++ d := by
  cases d with
  | nil => simp [writeAt]
  | cons x xs => simp [writeAt]

theorem writeAt_gap (out : List Byte) (pos : Nat) (x : Byte) (h : out.length ≤ pos) :
    writeAt out pos [x] = out ++ List.replicate (pos - out.length) 0 ++ [x] := by
  have h1 : (out ++ List.replicate (pos - out.length) (0 : Byte)).length = pos := by
    simp; omega
  simp only [writeAt]
  rw [List.take_of_length_le (by omega), List.drop_of_length_le (by simp; omega)]
  simp

theorem fread_fst (inp : List Byte) (B : Nat) (s : State) :
    (fread inp B s).1 = min B (inp.length - s.ipos) := by
  simp [fread]

/-- At the end of the input the loop stops without touching the state. -/
theorem copyLoop_eof (B : Nat) (inp : List Byte) (n fuel : Nat) (s : State)
    (h : inp.length ≤ s.ipos) : copyLoop B inp n (fuel + 1) s = .ok s := by
  have h0 : (fread inp B s).1 = 0 := by rw [fread_fst]; omega
  simp [copyLoop, h0]

/-- The copy loop when the output is ahead of the input (negative offset): it
appends the next `fsize - ftell(fo)` input bytes and stops with the output at
`fsize` bytes. -/
theorem copyLoop_ahead (B : Nat) (inp : List Byte) (hB : 0 < B) :
    ∀ (fuel : Nat) (s : State), s.opos = s.out.length → s.ipos ≤ s.opos →
      s.opos ≤ inp.length → inp.length - s.ipos < fuel →
      ∃ s2, copyLoop B inp inp.length fuel s = .ok s2 ∧
        s2.out = s.out ++ (inp.drop s.ipos).take (inp.length - s.opos) ∧
        s2.opos = inp.length := by
  intro fuel
  induction fuel with
  | zero => intro s _ _ _ h; omega
  | succ fuel ih =>
    intro s hout hip hpn hfuel
    by_cases hlen : (fread inp B s).1 = 0
    · rw [fread_fst] at hlen
      have hi : inp.length ≤ s.ipos := by omega
      refine ⟨s, copyLoop_eof B inp _ fuel s hi, ?_, by omega⟩
      have : inp.length - s.opos = 0 := by omega
      simp [this]
    · have hlen2 : (fread inp B s).1 = min B (inp.length - s.ipos) := fread_fst inp B s
      have hpos : 0 < (fread inp B s).1 := Nat.pos_of_ne_zero hlen
      by_cases hbr : s.opos + B > inp.length
      · -- truncated write
        have hd : ((fread inp B s).2.buffer).take (inp.length - s.opos)
            = (inp.drop s.ipos).take (inp.length - s.opos) := by
          simp only [fread]
          rw [List.take_append_of_le_length (by simp; omega), List.take_take]
          congr 1; omega
        obtain ⟨s2, h1, h2, h3⟩ := ih (fwrite (inp.length - s.opos) (fread inp B s).2)
          (by simp only [fwrite, hd]; simp [fread, hout, writeAt_end])
          (by simp only [fwrite, hd]; simp [fread]; omega)
          (by simp only [fwrite, hd]; simp [fread]; omega)
          (by simp only [fwrite, hd]; simp [fread]; omega)
        refine ⟨s2, ?_, ?_, h3⟩
        · rw [copyLoop]
          simp only [hpos, if_true]
          have e1 : (fread inp B s).2.opos = s.opos := rfl
          rw [e1, if_pos hbr, if_neg (by omega)]
          exact h1
        · rw [h2]
          simp only [fwrite, hd]
          have e1 : (fread inp B s).2.opos = s.opos := rfl
          have e2 : (fread inp B s).2.out = s.out := rfl
          rw [e1, e2, hout, writeAt_end]
          have : inp.length - (s.out.length + ((inp.drop s.ipos).take (inp.length - s.out.length)).length) = 0 := by
            simp; omega
          rw [this]; simp
      · -- full block
        have hfull : (fread inp B s).1 = B := by omega
        have hd : ((fread inp B s).2.buffer).take (fread inp B s).1
            = (inp.drop s.ipos).take B := by
          simp only [fread]
          rw [List.take_append_of_le_length (by simp)]
          simp
        have hdl : ((inp.drop s.ipos).take B).length = B := by simp; omega
        obtain ⟨s2, h1, h2, h3⟩ := ih (fwrite (fread inp B s).1 (fread inp B s).2)
          (by simp only [fwrite, hd]; simp [fread, hout, writeAt_end])
          (by simp only [fwrite, hd, hdl]; simp [fread]; omega)
          (by simp only [fwrite, hd, hdl]; simp [fread]; omega)
          (by simp only [fwrite, hd, hdl]; simp [fread]; omega)
        refine ⟨s2, ?_, ?_, h3⟩
        · rw [copyLoop]
          simp only [hpos, if_true]
          have e1 : (fread inp B s).2.opos = s.opos := rfl
          rw [e1, if_neg hbr]
          exact h1
        · rw [h2]
          simp only [fwrite, hd, hdl]
          have e1 : (fread inp B s).2.opos = s.opos := rfl
          have e2 : (fread inp B s).2.out = s.out := rfl
          have e3 : (fread inp B s).2.ipos = s.ipos + B := by
            show s.ipos + ((inp.drop s.ipos).take B).length = _
            rw [hdl]
          rw [e1, e2, e3, hout, writeAt_end, List.append_assoc]
          congr 1
          have e4 : inp.length - s.out.length = B + (inp.length - (s.out.length + B)) := by omega
          rw [e4, List.take_add, List.drop_drop]

/-- The copy loop when the input is `k` bytes ahead of the output (positive
offset): it appends the rest of the input, then possibly some bytes `X` left in
the buffer, and never takes the output past `fsize` bytes. -/
theorem copyLoop_behind (B : Nat) (inp : List Byte) (hB : 0 < B) (k : Nat) :
    ∀ (fuel : Nat) (s : State), s.opos = s.out.length → s.ipos = k + s.opos →
      s.ipos ≤ inp.length → s.buffer.length = B → inp.length - s.ipos < fuel →
      ∃ s2 X, copyLoop B inp inp.length fuel s = .ok s2 ∧
        s2.out = s.out ++ inp.drop s.ipos ++ X ∧
        s2.opos = s2.out.length ∧ s2.out.length ≤ inp.length := by
  intro fuel
  induction fuel with
  | zero => intro s _ _ _ _ h; omega
  | succ fuel ih =>
    intro s hout hik hin hbuf hfuel
    have e1 : (fread inp B s).2.opos = s.opos := rfl
    have e2 : (fread inp B s).2.out = s.out := rfl
    by_cases hlen : (fread inp B s).1 = 0
    · rw [fread_fst] at hlen
      have hi : inp.length ≤ s.ipos := by omega
      refine ⟨s, [], copyLoop_eof B inp _ fuel s hi, ?_, hout, by omega⟩
      simp [List.drop_of_length_le hi]
    · have hlen2 : (fread inp B s).1 = min B (inp.length - s.ipos) := fread_fst inp B s
      have hpos : 0 < (fread inp B s).1 := Nat.pos_of_ne_zero hlen
      by_cases hbr : s.opos + B > inp.length
      · -- truncated write: the rest of the input, then `k` bytes of old buffer
        have hdata : (inp.drop s.ipos).take B = inp.drop s.ipos :=
          List.take_of_length_le (by simp; omega)
        have hd : ((fread inp B s).2.buffer).take (inp.length - s.opos)
            = inp.drop s.ipos ++ (s.buffer.drop (inp.length - s.ipos)).take k := by
          simp only [fread, hdata]
          rw [List.take_append_eq_append_take, List.take_of_length_le (by simp; omega)]
          simp only [List.length_drop]
          congr 2
          omega
        have hdl : (inp.drop s.ipos ++ (s.buffer.drop (inp.length - s.ipos)).take k).length
            = inp.length - s.opos := by
          simp; omega
        have e3 : (fread inp B s).2.ipos = inp.length := by
          show s.ipos + ((inp.drop s.ipos).take B).length = _
          rw [hdata]; simp; omega
        cases fuel with
        | zero => omega
        | succ fuel =>
          refine ⟨fwrite (inp.length - s.opos) (fread inp B s).2,
            (s.buffer.drop (inp.length - s.ipos)).take k, ?_, ?_, ?_, ?_⟩
          · rw [copyLoop]
            simp only [hpos, if_true]
            rw [e1, if_pos hbr, if_neg (by omega)]
            exact copyLoop_eof B inp _ fuel _ (by simp only [fwrite]; rw [e3])
          · simp only [fwrite, hd]
            rw [e1, e2, hout, writeAt_end, List.append_assoc]
          · simp only [fwrite, hd, hdl]
            rw [e1, e2, hout, writeAt_end]
            simp only [List.length_append] at hdl ⊢
            omega
          · simp only [fwrite, hd]
            rw [e1, e2, hout, writeAt_end]
            simp only [List.length_append] at hdl ⊢
            omega
      · -- the bytes read, all of them
        have hd : ((fread inp B s).2.buffer).take (fread inp B s).1
            = (inp.drop s.ipos).take B := by
          simp only [fread]
          rw [List.take_append_of_le_length (by simp)]
          simp
        have hdl : ((inp.drop s.ipos).take B).length = (fread inp B s).1 := by
          rw [hlen2]; simp
        have e3 : (fread inp B s).2.ipos = s.ipos + (fread inp B s).1 := by
          rw [← hdl]; rfl
        have e4 : (fread inp B s).2.buffer.length = B := by
          simp only [fread]
          simp; omega
        obtain ⟨s2, X, h1, h2, h3, h4⟩ := ih (fwrite (fread inp B s).1 (fread inp B s).2)
          (by simp only [fwrite, hd]; rw [e1, e2, hout, writeAt_end]; simp)
          (by simp only [fwrite, hd, hdl]; rw [e1, e3]; omega)
          (by simp only [fwrite]; rw [e3]; omega)
          (by simp only [fwrite]; exact e4)
          (by simp only [fwrite]; rw [e3]; omega)
        refine ⟨s2, X, ?_, ?_, h3, h4⟩
        · rw [copyLoop]
          simp only [hpos, if_true]
          rw [e1, if_neg hbr]
          exact h1
        · rw [h2]
          simp only [fwrite, hd]
          rw [e1, e2, e3, hout, writeAt_end, ← hdl, List.length_take, List.append_assoc,
            List.append_assoc, List.append_assoc]
          congr 1
          rw [← List.append_assoc]
          congr 1
          have : min B (inp.drop s.ipos).length = B ∨
              min B (inp.drop s.ipos).length = (inp.drop s.ipos).length := by omega
          rw [← List.drop_drop]
          rcases this with h | h
          · rw [h, List.take_append_drop]
          · rw [h, List.take_of_length_le (by omega : (inp.drop s.ipos).length ≤ B)]
            simp
            omega

/-! ## The shift -/

/-- Negative offset: `max a 1` zero bytes (`a` the value of `abs(offset)`; the
seek to `-1` fails when it is 0), then the first bytes of the input up to the
input size. -/
theorem shift_neg (B : Nat) (g : Nat → Byte) (inp : List Byte) (offset a : Int)
    (hB : 0 < B) (hneg : offset < 0) (ha0 : 0 ≤ a) (ha : a < inp.length) :
    shift B g inp offset a
      = .ok (List.replicate (max a.toNat 1) 0 ++ inp.take (inp.length - max a.toNat 1)) := by
  have hw : fwrite 1 { ipos := 0, out := [], opos := fseek 0 (a - 1), buffer := List.replicate B 0 }
      = { ipos := 0, out := List.replicate (max a.toNat 1) 0, opos := max a.toNat 1,
          buffer := List.replicate B 0 } := by
    obtain ⟨b, rfl⟩ : ∃ b, B = b + 1 := ⟨B - 1, by omega⟩
    have hs : fseek 0 (a - 1) + 1 = max a.toNat 1 := by
      unfold fseek
      split <;> omega
    simp only [fwrite, List.replicate_succ, List.take_succ_cons, List.take_zero,
      List.length_singleton]
    rw [writeAt_gap _ _ _ (by simp), hs]
    simp only [List.length_nil, Nat.sub_zero, List.nil_append]
    rw [← hs, ← List.replicate_succ', List.replicate_succ]
  obtain ⟨s2, h1, h2, h3⟩ := copyLoop_ahead B inp hB (inp.length + 1)
    { ipos := 0, out := List.replicate (max a.toNat 1) 0, opos := max a.toNat 1,
      buffer := List.replicate B 0 }
    (by simp) (by simp) (by show max a.toNat 1 ≤ inp.length; omega) (by simp)
  simp only [shift, memset, if_pos hneg]
  rw [hw, h1]
  simp only [h3, lt_irrefl, if_false, h2, List.drop_zero]

/-- Positive offset below the input size: the input from byte `offset` on,
then bytes `X` up to the input size. -/
theorem shift_pos (B : Nat) (g : Nat → Byte) (inp : List Byte) (offset a : Int)
    (hB : 0 < B) (hpos : 0 < offset) (hlt : offset < inp.length) :
    ∃ X, shift B g inp offset a = .ok (inp.drop offset.toNat ++ X) ∧
      (inp.drop offset.toNat ++ X).length = inp.length := by
  have hs : fseek 0 offset = offset.toNat := by
    unfold fseek
    rw [if_neg (by omega)]
  obtain ⟨s2, X, h1, h2, h3, h4⟩ := copyLoop_behind B inp hB offset.toNat (inp.length + 1)
    { ipos := offset.toNat, out := [], opos := 0, buffer := stackBuffer g B 0 }
    rfl rfl (by show offset.toNat ≤ inp.length; omega) (stackBuffer_length g B 0)
    (by show inp.length - offset.toNat < inp.length + 1; omega)
  simp only [List.nil_append] at h2
  simp only [shift, if_neg (not_lt.mpr hpos.le)]
  rw [hs, h1]
  by_cases hshort : s2.opos < inp.length
  · refine ⟨X ++ List.replicate (inp.length - 1 - s2.out.length) 0 ++ [0], ?_, ?_⟩
    · simp only [if_pos hshort]
      obtain ⟨b, rfl⟩ : ∃ b, B = b + 1 := ⟨B - 1, by omega⟩
      have hk : fseek s2.opos ((inp.length : Int) - 1) = inp.length - 1 := by
        unfold fseek
        rw [if_neg (by omega)]
        omega
      simp only [fwrite, memset, List.replicate_succ, List.take_succ_cons, List.take_zero]
      rw [hk, writeAt_gap _ _ _ (by omega), h2]
      simp
    · rw [h2] at h3 h4
      simp only [List.length_append, List.length_replicate, List.length_singleton, h2] at h3 h4 ⊢
      omega
  · refine ⟨X, ?_, ?_⟩
    · simp only [if_neg hshort, h2]
    · rw [← h2]; omega

/-- Both signs: with `abs(offset)` below the input size the shift ends and the
output has the size of the input. -/
theorem shift_length (B : Nat) (g : Nat → Byte) (inp : List Byte) (offset a : Int)
    (hB : 0 < B) (h0 : offset ≠ 0) (hlt : offset < inp.length)
    (ha0 : 0 ≤ a) (ha : a < inp.length) :
    ∃ out, shift B g inp offset a = .ok out ∧ out.length = inp.length := by
  rcases lt_or_gt_of_ne h0 with hneg | hpos
  · refine ⟨_, shift_neg B g inp offset a hB hneg ha0 ha, ?_⟩
    simp only [List.length_append, List.length_replicate, List.length_take]
    omega
  · obtain ⟨X, h1, h2⟩ := shift_pos B g inp offset a hB hpos hlt
    exact ⟨_, h1, h2⟩

/-! ## abs on a long long -/

theorem toInt32_of_small (x : Int) (h1 : -(2 ^ 31) ≤ x) (h2 : x < 2 ^ 31) : toInt32 x = x := by
  unfold toInt32
  omega

theorem toInt32_range (x : Int) : -(2 ^ 31) ≤ toInt32 x ∧ toInt32 x < 2 ^ 31 := by
  unfold toInt32
  omega

/-- Below `2^31` in magnitude, `abs` is the absolute value. -/
theorem abs_of_small (x : Int) (h : x.natAbs < 2 ^ 31) : abs x = some (x.natAbs : Int) := by
  have e : toInt32 x = x := toInt32_of_small x (by omega) (by omega)
  unfold abs INT_MIN
  rw [e, if_neg (by omega)]

/-- Whatever `abs` returns is in `[0, 2^31)` and never exceeds the magnitude of
its argument. -/
theorem abs_bound (x a : Int) (h : abs x = some a) :
    0 ≤ a ∧ a < 2 ^ 31 ∧ a ≤ (x.natAbs : Int) := by
  unfold abs INT_MIN at h
  have hr := toInt32_range x
  split at h
  · exact absurd h (by simp)
  · rename_i hne
    have ha : a = ((toInt32 x).natAbs : Int) := by
      simpa using h.symm
    by_cases hs : x.natAbs < 2 ^ 31
    · have e : toInt32 x = x := toInt32_of_small x (by omega) (by omega)
      rw [e] at ha
      omega
    · omega

theorem abs_isSome (x : Int) (h : toInt32 x ≠ INT_MIN) : ∃ a, abs x = some a := by
  unfold abs
  rw [if_neg h]
  exact ⟨_, rfl⟩

/-! ## File system: basic facts -/

theorem fopen_rb_of_file (fs : FS) (p : String) (c : List Byte) (w : Bool)
    (h : fs.files p = some ⟨c, true, w⟩) : fopen_rb fs p = some c := by
  simp [fopen_rb, h]

theorem fopen_rb_of_none (fs : FS) (p : String) (h : fs.files p = none) :
    fopen_rb fs p = none := by
  simp [fopen_rb, h]

theorem fopen_wb_fresh (fs : FS) (p : String) (h : fs.files p = none)
    (hc : fs.creatable p = true) :
    fopen_wb fs p = some (fs.store p ⟨[], true, true⟩) := by
  simp [fopen_wb, h, hc]

theorem flush_store_files (fs : FS) (p : String) (f : File) (out : List Byte) (q : String) :
    ((fs.store p f).flush p out).files q
      = if q = p then some { f with content := out } else fs.files q := by
  simp [FS.flush, FS.store]
  split <;> simp_all

/-! ## Runs that reach the copy -/

/-- A run that passes every check: the outcome is that of the shift. -/
theorem mainB_checks_passed (B : Nat) (g : Nat → Byte) (prog a1 i o : String) (fs fs1 : FS)
    (inp : List Byte) (a : Int) (h0 : atoll a1 ≠ 0) (hin : fopen_rb fs i = some inp)
    (habs : abs (atoll a1) = some a) (ha : a < inp.length)
    (hro : fopen_rb fs o = none) (hwo : fopen_wb fs o = some fs1) :
    mainB B g [prog, a1, i, o] fs =
      match shift B g inp (atoll a1) a with
      | .error e => .error e
      | .ok out => .ok { code := 0, stderr := [.usingOffset (atoll a1)],
                         fs := fs1.flush o out, opens := [(i, .rb), (o, .rb), (o, .wb)] } := by
  simp only [mainB, if_neg h0, hin, habs, hro, hwo, ge_iff_le, if_neg (not_le.mpr ha)]

/-- A run on a readable input, with a free and creatable output path and
`abs(offset)` below the input size, once the shift gives `out`. -/
theorem mainB_fresh (B : Nat) (g : Nat → Byte) (prog a1 i o : String) (fs : FS)
    (inp out : List Byte) (w : Bool) (a : Int) (h0 : atoll a1 ≠ 0)
    (hin : fs.files i = some ⟨inp, true, w⟩)
    (habs : abs (atoll a1) = some a) (ha : a < inp.length)
    (hout : fs.files o = none) (hc : fs.creatable o = true)
    (hs : shift B g inp (atoll a1) a = .ok out) :
    mainB B g [prog, a1, i, o] fs =
      .ok { code := 0, stderr := [.usingOffset (atoll a1)],
            fs := (fs.store o ⟨[], true, true⟩).flush o out,
            opens := [(i, .rb), (o, .rb), (o, .wb)] } := by
  rw [mainB_checks_passed B g prog a1 i o fs _ inp a h0 (fopen_rb_of_file fs i inp w hin)
    habs ha (fopen_rb_of_none fs o hout) (fopen_wb_fresh fs o hout hc), hs]

/-! ## File-system frame of a run -/

/-- Whatever the arguments, a run that has an outcome leaves every path other
than `argv[3]` as it was, removes no file, and leaves every file it could read
(the input among them) with the same content. -/
theorem mainB_frame (B : Nat) (g : Nat → Byte) (argv : List String) (fs : FS) (r : Outcome)
    (h : mainB B g argv fs = .ok r) :
    (∀ p, argv.get? 3 ≠ some p → r.fs.files p = fs.files p) ∧
      (∀ p, (fs.files p).isSome → (r.fs.files p).isSome) ∧
      (∀ p c, fopen_rb fs p = some c → fopen_rb r.fs p = some c) := by
  unfold mainB at h
  split at h
  · rename_i p0 a1 a2 a3
    have hsame : r.fs = fs → ((∀ p, [p0, a1, a2, a3].get? 3 ≠ some p → r.fs.files p = fs.files p) ∧
        (∀ p, (fs.files p).isSome → (r.fs.files p).isSome) ∧
        (∀ p c, fopen_rb fs p = some c → fopen_rb r.fs p = some c)) := by
      intro e; rw [e]; exact ⟨fun _ _ => rfl, fun _ hp => hp, fun _ _ hp => hp⟩
    simp only at h
    split at h
    · cases h; exact hsame rfl
    · split at h
      · cases h; exact hsame rfl
      · split at h
        · exact absurd h (by simp)
        · split at h
          · cases h; exact hsame rfl
          · split at h
            · cases h; exact hsame rfl
            · rename_i hro
              split at h
              · cases h; exact hsame rfl
              · rename_i fs1 hwo
                split at h
                · exact absurd h (by simp)
                · rename_i out hs
                  cases h
                  -- the file at `a3` was not readable, and `fopen_wb` stored a file there
                  have hfs1 : ∃ f, fs1 = fs.store a3 f := by
                    unfold fopen_wb at hwo
                    split at hwo
                    · split at hwo
                      · exact ⟨_, (Option.some.inj hwo).symm⟩
                      · exact absurd hwo (by simp)
                    · split at hwo
                      · exact ⟨_, (Option.some.inj hwo).symm⟩
                      · exact absurd hwo (by simp)
                  obtain ⟨f, rfl⟩ := hfs1
                  refine ⟨?_, ?_, ?_⟩
                  · intro p hp
                    have hne : p ≠ a3 := by
                      intro e; apply hp; simp [e]
                    show ((fs.store a3 f).flush a3 out).files p = fs.files p
                    rw [flush_store_files, if_neg hne]
                  · intro p hp
                    show (((fs.store a3 f).flush a3 out).files p).isSome
                    rw [flush_store_files]
                    split
                    · rfl
                    · exact hp
                  · intro p c hp
                    have hne : p ≠ a3 := by
                      intro e; rw [e, hro] at hp; exact absurd hp (by simp)
                    show fopen_rb ((fs.store a3 f).flush a3 out) p = some c
                    unfold fopen_rb at hp ⊢
                    rw [flush_store_files, if_neg hne]
                    exact hp
  · cases h
    exact ⟨fun _ _ => rfl, fun _ hp => hp, fun _ _ hp => hp⟩


/-- A zero offset ends the run at once. -/
theorem mainB_zero (B : Nat) (g : Nat → Byte) (prog a1 i o : String) (fs : FS)
    (h : atoll a1 = 0) :
    mainB B g [prog, a1, i, o] fs
      = .ok { code := 0, stderr := [.zeroOffset], fs := fs, opens := [] } := by
  simp [mainB, h]

/-- An input that cannot be opened ends the run with the input diagnostic. -/
theorem mainB_no_input (B : Nat) (g : Nat → Byte) (prog a1 i o : String) (fs : FS)
    (h0 : atoll a1 ≠ 0) (h : fopen_rb fs i = none) :
    mainB B g [prog, a1, i, o] fs
      = .ok { code := 1, stderr := [.inputFileError], fs := fs, opens := [(i, .rb)] } := by
  simp [mainB, h0, h]

/-- The size check, once the input is open and `abs` has a value. -/
theorem mainB_too_large (B : Nat) (g : Nat → Byte) (prog a1 i o : String) (fs : FS)
    (inp : List Byte) (a : Int)
    (h0 : atoll a1 ≠ 0) (hin : fopen_rb fs i = some inp) (habs : abs (atoll a1) = some a)
    (ha : (inp.length : Int) ≤ a) :
    mainB B g [prog, a1, i, o] fs
      = .ok { code := 1, stderr := [.offsetTooLarge], fs := fs, opens := [(i, .rb)] } := by
  simp [mainB, h0, hin, habs, ha]

/-- The existence test on the output path, once the size check has passed. -/
theorem mainB_output_exists (B : Nat) (g : Nat → Byte) (prog a1 i o : String) (fs : FS)
    (inp c : List Byte) (a : Int)
    (h0 : atoll a1 ≠ 0) (hin : fopen_rb fs i = some inp) (habs : abs (atoll a1) = some a)
    (ha : a < (inp.length : Int)) (hout : fopen_rb fs o = some c) :
    mainB B g [prog, a1, i, o] fs
      = .ok { code := 1, stderr := [.outputFileExists], fs := fs,
              opens := [(i, .rb), (o, .rb)] } := by
  simp [mainB, h0, hin, habs, not_le.mpr ha, hout]

/-- A run with a non-zero offset that exits 0 has passed every check, and the
file at the output path holds what the shift produced. -/
theorem mainB_success (B : Nat) (g : Nat → Byte) (prog a1 i o : String) (fs : FS)
    (r : Outcome) (h0 : atoll a1 ≠ 0) (h : mainB B g [prog, a1, i, o] fs = .ok r)
    (hc : r.code = 0) :
    ∃ inp a out, fopen_rb fs i = some inp ∧ abs (atoll a1) = some a ∧
      a < (inp.length : Int) ∧ shift B g inp (atoll a1) a = .ok out ∧
      (r.fs.files o).map File.content = some out := by
  unfold mainB at h
  simp only [if_neg h0] at h
  split at h
  · cases h; simp at hc
  · rename_i inp hin
    split at h
    · exact absurd h (by simp)
    · rename_i a habs
      split at h
      · cases h; simp at hc
      · rename_i ha
        split at h
        · cases h; simp at hc
        · split at h
          · cases h; simp at hc
          · rename_i fs1 hwo
            split at h
            · exact absurd h (by simp)
            · rename_i out hs
              cases h
              refine ⟨inp, a, out, hin, habs, not_le.mp ha, hs, ?_⟩
              have hfs1 : ∃ f, fs1 = fs.store o f := by
                unfold fopen_wb at hwo
                split at hwo
                · split at hwo
                  · exact ⟨_, (Option.some.inj hwo).symm⟩
                  · exact absurd hwo (by simp)
                · split at hwo
                  · exact ⟨_, (Option.some.inj hwo).symm⟩
                  · exact absurd hwo (by simp)
              obtain ⟨f, rfl⟩ := hfs1
              show (((fs.store o f).flush o out).files o).map File.content = some out
              rw [flush_store_files]
              simp

/-! ## A file beyond the range of int -/

theorem bigInput_length : bigInput.length = 4294967306 := by
  simp only [bigInput, List.length_replicate]; norm_num

theorem atoll_minus_big : atoll "-4294967299" = -4294967299 := by decide

theorem atoll_plus_big : atoll "4294967299" = 4294967299 := by decide

theorem abs_minus_big : abs (-4294967299) = some 3 := by decide

theorem abs_plus_big : abs 4294967299 = some 3 := by decide

/-- With `abs(offset) = 3` and a negative offset the output is 3 zero bytes and
then the input without its last 3 bytes, whatever the offset is. -/
theorem mainB_neg_three (g : Nat → Byte) (a1 i o : String) (fs : FS) (inp : List Byte)
    (w : Bool) (hneg : atoll a1 < 0) (habs : abs (atoll a1) = some 3)
    (hin : fs.files i = some ⟨inp, true, w⟩) (hlen : 3 < inp.length)
    (hout : fs.files o = none) (hc : fs.creatable o = true) :
    mainB BLOCKSIZE g ["boffset", a1, i, o] fs =
      .ok { code := 0, stderr := [.usingOffset (atoll a1)],
            fs := (fs.store o ⟨[], true, true⟩).flush o
              (List.replicate 3 0 ++ inp.take (inp.length - 3)),
            opens := [(i, .rb), (o, .rb), (o, .wb)] } := by
  have hs := shift_neg BLOCKSIZE g inp (atoll a1) 3 (by decide) hneg (by decide)
    (by exact_mod_cast hlen)
  have e : max (3 : Int).toNat 1 = 3 := by decide
  rw [e] at hs
  exact mainB_fresh BLOCKSIZE g "boffset" a1 i o fs inp _ w 3 (ne_of_lt hneg) hin habs
    (by exact_mod_cast hlen) hout hc hs

/-! ## Reading an outcome -/

theorem main_eq (g : Nat → Byte) (argv : List String) (fs : FS) :
    main g argv fs = mainB BLOCKSIZE g argv fs := rfl

theorem codeOf_ok (r : Outcome) : codeOf (.ok r) = some r.code := rfl

theorem outputOf_ok (r : Outcome) (p : String) :
    outputOf (.ok r) p = (r.fs.files p).map File.content := rfl

/-! ## Two blocks -/

/-- One iteration that reads a full block and writes it. -/
theorem copyLoop_full (B : Nat) (inp : List Byte) (fuel : Nat) (s : State) (hB : 0 < B)
    (hout : s.opos = s.out.length) (hin : s.ipos + B ≤ inp.length)
    (hbr : s.opos + B ≤ inp.length) (hbuf : s.buffer.length = B) :
    copyLoop B inp inp.length (fuel + 1) s
      = copyLoop B inp inp.length fuel
          { ipos := s.ipos + B, out := s.out ++ (inp.drop s.ipos).take B, opos := s.opos + B,
            buffer := (inp.drop s.ipos).take B } := by
  have hdl : ((inp.drop s.ipos).take B).length = B := by
    rw [List.length_take, List.length_drop]; omega
  have hf : fread inp B s = (B, ⟨s.ipos + B, s.out, s.opos, (inp.drop s.ipos).take B⟩) := by
    have hb : s.buffer.drop B = [] := List.drop_of_length_le (le_of_eq hbuf)
    simp only [fread, hdl, hb, List.append_nil]
  have hwa : ∀ X, writeAt s.out s.opos X = s.out ++ X := by
    intro X; rw [hout, writeAt_end]
  rw [copyLoop]
  simp only [hf, hB, if_true, if_neg (by omega : ¬ s.opos + B > inp.length)]
  congr 1
  simp only [fwrite, List.take_of_length_le (le_of_eq hdl), hdl, hwa]

/-- The last iteration when it takes the first branch: the rest of the input
is read into the head of the buffer, and `fsize - ftell(fo)` bytes are written,
the bytes read and then bytes the buffer held before. -/
theorem copyLoop_last (B : Nat) (inp : List Byte) (fuel : Nat) (s : State)
    (hout : s.opos = s.out.length) (hin : s.ipos < inp.length)
    (hrest : inp.length - s.ipos ≤ B) (hio : s.opos ≤ s.ipos)
    (hbr : s.opos + B > inp.length) (hbuf : s.buffer.length = B) :
    copyLoop B inp inp.length (fuel + 2) s
      = .ok { ipos := inp.length,
              out := s.out ++ inp.drop s.ipos
                ++ (s.buffer.drop (inp.length - s.ipos)).take (s.ipos - s.opos),
              opos := inp.length,
              buffer := inp.drop s.ipos ++ s.buffer.drop (inp.length - s.ipos) } := by
  have hdata : (inp.drop s.ipos).take B = inp.drop s.ipos :=
    List.take_of_length_le (by rw [List.length_drop]; exact hrest)
  have hf : fread inp B s = (inp.length - s.ipos,
      ⟨inp.length, s.out, s.opos, inp.drop s.ipos ++ s.buffer.drop (inp.length - s.ipos)⟩) := by
    simp only [fread, hdata, List.length_drop]
    congr 2
    omega
  have hd : (inp.drop s.ipos ++ s.buffer.drop (inp.length - s.ipos)).take (inp.length - s.opos)
      = inp.drop s.ipos ++ (s.buffer.drop (inp.length - s.ipos)).take (s.ipos - s.opos) := by
    rw [List.take_append_eq_append_take, List.take_of_length_le (by simp; omega)]
    simp only [List.length_drop]
    congr 2
    omega
  have hdl : (inp.drop s.ipos
      ++ (s.buffer.drop (inp.length - s.ipos)).take (s.ipos - s.opos)).length
      = inp.length - s.opos := by
    simp only [List.length_append, List.length_drop, List.length_take]
    omega
  have hwa : ∀ X, writeAt s.out s.opos X = s.out ++ X := by
    intro X; rw [hout, writeAt_end]
  have hn : s.opos + (inp.length - s.opos) = inp.length := by omega
  rw [copyLoop]
  simp only [hf, if_pos (by omega : inp.length - s.ipos > 0), if_pos hbr,
    if_neg (by omega : ¬ inp.length < s.opos)]
  rw [copyLoop_eof B inp _ fuel _ (by simp only [fwrite]; exact le_refl _)]
  congr 1
  simp only [fwrite, hd, hdl, hwa, hn, List.append_assoc]

/-- A positive offset `k` on an input of more than one block and less than
two: the output is the input from byte `k` on and then, in place of zeros, the
`k` input bytes from index `n - B` on, left in the buffer by the first
block. -/
theorem shift_two_blocks (B : Nat) (g : Nat → Byte) (inp : List Byte) (k : Nat) (a : Int)
    (hk : 0 < k) (h1 : k + B < inp.length) (h2 : inp.length < 2 * B) :
    shift B g inp k a = .ok (inp.drop k ++ (inp.drop (inp.length - B)).take k) := by
  have hB : 0 < B := by omega
  have hs : fseek 0 (k : Int) = k := by
    unfold fseek
    rw [if_neg (by omega)]
    omega
  simp only [shift, if_neg (by omega : ¬ (k : Int) < 0)]
  rw [hs, show inp.length + 1 = (inp.length - 2) + 2 + 1 by omega,
    copyLoop_full B inp _ _ hB rfl (by show k + B ≤ inp.length; omega)
      (by show 0 + B ≤ inp.length; omega) (stackBuffer_length g B 0),
    copyLoop_last B inp _ _ (by simp; omega) (by show k + B < inp.length; omega)
      (by show inp.length - (k + B) ≤ B; omega) (by show 0 + B ≤ k + B; omega)
      (by show 0 + B + B > inp.length; omega) (by simp; omega)]
  simp only [lt_irrefl, if_false, List.nil_append]
  congr 1
  have e1 : k + B - (0 + B) = k := by omega
  rw [e1, List.append_assoc]
  have e2 : ((inp.drop k).take B).drop (inp.length - (k + B))
      = ((inp.drop (inp.length - B)).take (B - (inp.length - (k + B)))) := by
    rw [List.drop_take, List.drop_drop]
    congr 2
    omega
  rw [e2, List.take_take, min_eq_left (by omega)]
  conv_rhs => rw [← List.take_append_drop B (inp.drop k)]
  rw [List.append_assoc, List.drop_drop]

theorem twoBlockInput_length : twoBlockInput.length = 4104 := by
  simp only [twoBlockInput, List.length_append, List.length_replicate, List.length_cons,
    List.length_nil]

theorem atoll_three : atoll "3" = 3 := by decide

/-- The run on `twoBlockInput` with offset `3`. -/
theorem mainB_twoBlockInput (g : Nat → Byte) :
    mainB BLOCKSIZE g ["boffset", "3", "in", "out"] (FS.single "in" twoBlockInput) =
      .ok { code := 0, stderr := [.usingOffset (atoll "3")],
            fs := ((FS.single "in" twoBlockInput).store "out" ⟨[], true, true⟩).flush "out"
              (twoBlockInput.drop 3 ++ (twoBlockInput.drop (twoBlockInput.length - BLOCKSIZE)).take 3),
            opens := [("in", .rb), ("out", .rb), ("out", .wb)] } := by
  have hs := shift_two_blocks BLOCKSIZE g twoBlockInput 3 3 (by decide)
    (by rw [twoBlockInput_length]; decide) (by rw [twoBlockInput_length]; decide)
  exact mainB_fresh BLOCKSIZE g "boffset" "3" "in" "out" (FS.single "in" twoBlockInput)
    twoBlockInput _ true 3 (by rw [atoll_three]; decide) rfl (by rw [atoll_three]; decide)
    (by rw [twoBlockInput_length]; decide) rfl rfl (by rw [atoll_three]; exact hs)

/-! ## Claims -/

/-- C1 (at two failing inputs). On `twoBlockInput` (4104 bytes) with offset
`3` the run exits 0 and the output is the input from byte 3 on followed by
`07 08 09`, the input bytes 8 to 10, where the claim has three zero bytes: the
second `fread` returns 5 bytes and the `fwrite` of line 109 writes
`fsize - ftell(fo) = 8` bytes, of which the last three are left in the buffer
from the first block. On the input `01 02 03 04 05 06 07 08` with offset `+3`
(scenario 1 of the claim) the output is `04 05 06 07 08` followed by bytes 5,
6 and 7 of the buffer as they were before the only read. -/
theorem positive_shift_writes_stale_buffer (g : Nat → Byte) :
    twoBlockInput.length = 4104 ∧
      codeOf (main g ["boffset", "3", "in", "out"] (FS.single "in" twoBlockInput)) = some 0 ∧
      outputOf (main g ["boffset", "3", "in", "out"] (FS.single "in" twoBlockInput)) "out"
        = some (twoBlockInput.drop 3 ++ [7, 8, 9]) ∧
      codeOf (main g ["boffset", "+3", "in", "out"] (FS.single "in" [1, 2, 3, 4, 5, 6, 7, 8]))
        = some 0 ∧
      outputOf (main g ["boffset", "+3", "in", "out"] (FS.single "in" [1, 2, 3, 4, 5, 6, 7, 8]))
        "out" = some [4, 5, 6, 7, 8, g 5, g 6, g 7] := by
  have ht : (twoBlockInput.drop (twoBlockInput.length - BLOCKSIZE)).take 3 = [7, 8, 9] := by
    rw [twoBlockInput_length]
    rfl
  have hm := mainB_twoBlockInput g
  rw [ht] at hm
  refine ⟨twoBlockInput_length, ?_, ?_, rfl, rfl⟩
  · rw [main_eq, hm, codeOf_ok]
  · rw [main_eq, hm, outputOf_ok, flush_store_files, if_pos rfl, Option.map_some']

/-- C2 (at the failing input): the input has `2^32 + 10` bytes and the offset
argument is `-4294967299`, that is `-(2^32 + 3)`, of magnitude below the input
size. `abs` sees the `int` -3, so the output is 3 zero bytes followed by the
first `2^32 + 7` bytes of the input, where the claim has `2^32 + 3` zero bytes
followed by the first 7 bytes of the input. -/
theorem negative_shift_beyond_int (g : Nat → Byte) :
    atoll "-4294967299" = -4294967299 ∧ bigInput.length = 4294967306 ∧
      codeOf (main g ["boffset", "-4294967299", "in", "out"] (FS.single "in" bigInput))
        = some 0 ∧
      outputOf (main g ["boffset", "-4294967299", "in", "out"] (FS.single "in" bigInput)) "out"
        = some (List.replicate 3 0 ++ List.replicate 4294967303 1) := by
  have hm := mainB_neg_three g "-4294967299" "in" "out" (FS.single "in" bigInput) bigInput true
    (by rw [atoll_minus_big]; decide) (by rw [atoll_minus_big]; exact abs_minus_big) rfl
    (by rw [bigInput_length]; decide) rfl rfl
  have ht : bigInput.take (bigInput.length - 3) = List.replicate 4294967303 1 := by
    rw [bigInput_length]
    simp only [bigInput, List.take_replicate]
    norm_num
  rw [ht] at hm
  refine ⟨atoll_minus_big, bigInput_length, ?_, ?_⟩
  · rw [main_eq, hm, codeOf_ok]
  · rw [main_eq, hm, outputOf_ok, flush_store_files, if_pos rfl, Option.map_some']

/-- C3: the input is readable with `n` bytes, nothing is at the output path and
`0 < |offset| < n`. Then every run that exits 0 leaves at the output path a
file of exactly `n` bytes, whatever the sign of the offset; and there is such a
run as soon as the output path can be created and `abs(offset)` is defined
(the offset, as an `int`, is not `INT_MIN`). -/
theorem output_length_is_input_length (g : Nat → Byte) (prog a1 i o : String) (fs : FS)
    (inp : List Byte) (hin : fopen_rb fs i = some inp) (hout : fs.files o = none)
    (h0 : 0 < (atoll a1).natAbs) (hlt : (atoll a1).natAbs < inp.length) :
    (∀ r, main g [prog, a1, i, o] fs = .ok r → r.code = 0 →
        ∃ out, (r.fs.files o).map File.content = some out ∧ out.length = inp.length) ∧
      (fs.creatable o = true → toInt32 (atoll a1) ≠ INT_MIN →
        ∃ r, main g [prog, a1, i, o] fs = .ok r ∧ r.code = 0) := by
  have hne : atoll a1 ≠ 0 := by
    intro e; rw [e] at h0; simp at h0
  have hoff : atoll a1 < (inp.length : Int) := by omega
  have hsh : ∀ a, abs (atoll a1) = some a →
      a < (inp.length : Int) ∧
        ∃ out, shift BLOCKSIZE g inp (atoll a1) a = .ok out ∧ out.length = inp.length := by
    intro a ha
    obtain ⟨b1, _, b3⟩ := abs_bound _ _ ha
    have hlt2 : a < (inp.length : Int) := by omega
    exact ⟨hlt2, shift_length BLOCKSIZE g inp (atoll a1) a (by decide) hne hoff b1 hlt2⟩
  constructor
  · intro r hr hc
    obtain ⟨inp2, a, out, e1, e2, _, e4, e5⟩ :=
      mainB_success BLOCKSIZE g prog a1 i o fs r hne hr hc
    rw [hin] at e1
    cases e1
    obtain ⟨_, out2, f1, f2⟩ := hsh a e2
    rw [f1] at e4
    injection e4 with e4
    subst e4
    exact ⟨_, e5, f2⟩
  · intro hc hmin
    obtain ⟨a, ha⟩ := abs_isSome _ hmin
    obtain ⟨hlt2, out, f1, _⟩ := hsh a ha
    refine ⟨{ code := 0, stderr := [.usingOffset (atoll a1)],
              fs := (fs.store o ⟨[], true, true⟩).flush o out,
              opens := [(i, .rb), (o, .rb), (o, .wb)] }, ?_, rfl⟩
    rw [main_eq, mainB_checks_passed BLOCKSIZE g prog a1 i o fs _ inp a hne hin ha hlt2
      (fopen_rb_of_none fs o hout) (fopen_wb_fresh fs o hout hc), f1]

/-- Witness of C3: the input `01 .. 08` with offset `-3`. -/
theorem output_length_is_input_length_witness :
    (∀ r, main (fun _ => 0) ["boffset", "-3", "in", "out"] (FS.single "in" [1, 2, 3, 4, 5, 6, 7, 8])
          = .ok r → r.code = 0 →
        ∃ out, (r.fs.files "out").map File.content = some out ∧
          out.length = ([1, 2, 3, 4, 5, 6, 7, 8] : List Byte).length) ∧
      ((FS.single "in" [1, 2, 3, 4, 5, 6, 7, 8]).creatable "out" = true →
        toInt32 (atoll "-3") ≠ INT_MIN →
        ∃ r, main (fun _ => 0) ["boffset", "-3", "in", "out"]
          (FS.single "in" [1, 2, 3, 4, 5, 6, 7, 8]) = .ok r ∧ r.code = 0) :=
  output_length_is_input_length (fun _ => 0) "boffset" "-3" "in" "out"
    (FS.single "in" [1, 2, 3, 4, 5, 6, 7, 8]) [1, 2, 3, 4, 5, 6, 7, 8] rfl rfl
    (by decide) (by decide)

/-- C4 (at the failing input): with a 10-byte input and the offset argument
`4294967297` (that is `2^32 + 1`, at least the input size), the run does not
fail: `abs` sees the `int` 1, the check passes, the exit status is 0 and an
output file of 10 bytes is created. -/
theorem offset_check_passes_beyond_int (g : Nat → Byte) :
    (10 : Int) ≤ (atoll "4294967297").natAbs ∧
      codeOf (main g ["boffset", "4294967297", "in", "out"]
        (FS.single "in" [1, 2, 3, 4, 5, 6, 7, 8, 9, 10])) = some 0 ∧
      outputOf (main g ["boffset", "4294967297", "in", "out"]
        (FS.single "in" [1, 2, 3, 4, 5, 6, 7, 8, 9, 10])) "out"
        = some [0, 0, 0, 0, 0, 0, 0, 0, 0, 0] :=
  ⟨by decide, rfl, rfl⟩

/-- C6 (at the failing input): a file exists at the output path but the process
may only write it, not read it. The existence test `fopen(argv[3], "rb")`
returns `NULL`, the run goes on, exits 0, and the content `09 09` of the
existing file is replaced. -/
theorem unreadable_output_is_overwritten (g : Nat → Byte) :
    writeOnlyOutput.files "out" = some ⟨[9, 9], false, true⟩ ∧
      codeOf (main g ["boffset", "-3", "in", "out"] writeOnlyOutput) = some 0 ∧
      outputOf (main g ["boffset", "-3", "in", "out"] writeOnlyOutput) "out"
        = some [0, 0, 0, 1, 2, 3, 4, 5] :=
  ⟨rfl, rfl, rfl⟩

/-- C5 (at the failing input): the input has `2^32 + 10` bytes, each `0x01`, and
`k = 2^32 + 3`. The run with `+k` and then the run with `-k` on its result both
exit 0, and the final file `res` has the size of the input, but `res[3]` is
`0x01`, a byte of the input, where the claim has 0 for every index below `k`:
the second run pads `abs(offset) = 3` bytes only. -/
theorem round_trip_beyond_int (g1 g2 : Nat → Byte) :
    ∃ r1 r2 mid res,
      main g1 ["boffset", "4294967299", "in", "mid"] (FS.single "in" bigInput) = .ok r1 ∧
        r1.code = 0 ∧ r1.fs.files "mid" = some ⟨mid, true, true⟩ ∧
        main g2 ["boffset", "-4294967299", "mid", "out"] r1.fs = .ok r2 ∧
        r2.code = 0 ∧ (r2.fs.files "out").map File.content = some res ∧
        res.length = bigInput.length ∧ res[3]? = some 1 := by
  obtain ⟨X, hs, hl⟩ := shift_pos BLOCKSIZE g1 bigInput 4294967299 3 (by decide) (by decide)
    (by rw [bigInput_length]; decide)
  have hm1 := mainB_fresh BLOCKSIZE g1 "boffset" "4294967299" "in" "mid"
    (FS.single "in" bigInput) bigInput _ true 3 (by rw [atoll_plus_big]; decide) rfl
    (by rw [atoll_plus_big]; exact abs_plus_big) (by rw [bigInput_length]; decide) rfl rfl
    (by rw [atoll_plus_big]; exact hs)
  have hll : (3 : Nat) < (List.drop (4294967299 : Int).toNat bigInput ++ X).length := by
    rw [hl, bigInput_length]; decide
  have hm2 := mainB_neg_three g2 "-4294967299" "mid" "out"
    (((FS.single "in" bigInput).store "mid" ⟨[], true, true⟩).flush "mid"
      (List.drop (4294967299 : Int).toNat bigInput ++ X))
    (List.drop (4294967299 : Int).toNat bigInput ++ X) true
    (by rw [atoll_minus_big]; decide) (by rw [atoll_minus_big]; exact abs_minus_big)
    (by rw [flush_store_files, if_pos rfl])
    hll
    (by rw [flush_store_files, if_neg (by decide)]; rfl)
    (by simp only [FS.flush, FS.store, if_true]; rfl)
  refine ⟨_, _, _, _, by rw [main_eq]; exact hm1, rfl, by rw [flush_store_files, if_pos rfl],
    by rw [main_eq]; exact hm2, rfl, by rw [flush_store_files, if_pos rfl]; rfl, ?_, ?_⟩
  · simp only [List.length_append, List.length_replicate, List.length_take] at hll ⊢
    rw [← hl]
    simp only [List.length_append]
    omega
  · have e : (4294967299 : Int).toNat = 4294967299 := by decide
    rw [List.getElem?_append_right (by simp), List.length_replicate, Nat.sub_self,
      List.getElem?_take, if_pos (by omega), List.getElem?_append_left (by
        rw [List.length_drop, bigInput_length, e]; decide),
      List.getElem?_drop, e, bigInput, List.getElem?_replicate, if_pos (by norm_num)]

/-- C7: with three arguments and an offset argument that parses to zero, the
run exits 0 with the message `Zero offset: Nothing to do`, makes no `fopen`
call and leaves the file system as it was, whatever the two paths are. -/
theorem zero_offset_exits_zero (g : Nat → Byte) (prog a1 i o : String) (fs : FS)
    (h : atoll a1 = 0) :
    main g [prog, a1, i, o] fs
      = .ok { code := 0, stderr := [.zeroOffset], fs := fs, opens := [] } :=
  mainB_zero BLOCKSIZE g prog a1 i o fs h

/-- Witness of C7: offset argument `0`, a missing input and an existing
output. -/
theorem zero_offset_exits_zero_witness :
    atoll "0" = 0 ∧ outputOnly.files "missing" = none ∧
      (outputOnly.files "out").isSome = true ∧
      main (fun _ => 0) ["boffset", "0", "missing", "out"] outputOnly
        = .ok { code := 0, stderr := [.zeroOffset], fs := outputOnly, opens := [] } :=
  ⟨by decide, rfl, rfl,
    zero_offset_exits_zero (fun _ => 0) "boffset" "0" "missing" "out" outputOnly (by decide)⟩

/-- C8 (at the failing input): a file with content `09 09` exists at the output
path before the run, writable but not readable; the run opens it with `"wb"`,
exits 0, and the file then holds 8 other bytes, although the claim lets the
output path change only when no file was there. -/
theorem existing_output_path_changes (g : Nat → Byte) :
    (writeOnlyOutput.files "out").map File.content = some [9, 9] ∧
      codeOf (main g ["boffset", "-2", "in", "out"] writeOnlyOutput) = some 0 ∧
      opensOf (main g ["boffset", "-2", "in", "out"] writeOnlyOutput)
        = some [("in", .rb), ("out", .rb), ("out", .wb)] ∧
      outputOf (main g ["boffset", "-2", "in", "out"] writeOnlyOutput) "out"
        = some [0, 0, 1, 2, 3, 4, 5, 6] :=
  ⟨rfl, rfl, rfl, rfl⟩

/-- C9: with three arguments and a non-zero offset, when no file is at the
input path or the file there cannot be opened for reading, the run exits 1 with
the input-file diagnostic; the only `fopen` call is the one on the input and
the file system is as before (nothing at the output path is created). -/
theorem missing_input_fails (g : Nat → Byte) (prog a1 i o : String) (fs : FS)
    (h0 : atoll a1 ≠ 0)
    (hin : fs.files i = none ∨ ∃ f, fs.files i = some f ∧ f.readable = false) :
    main g [prog, a1, i, o] fs
      = .ok { code := 1, stderr := [.inputFileError], fs := fs, opens := [(i, .rb)] } := by
  have h : fopen_rb fs i = none := by
    rcases hin with h | ⟨f, h, hr⟩
    · simp [fopen_rb, h]
    · simp [fopen_rb, h, hr]
  exact mainB_no_input BLOCKSIZE g prog a1 i o fs h0 h

/-- Witness of C9: offset `5` and no file at the input path. -/
theorem missing_input_fails_witness :
    atoll "5" ≠ 0 ∧ outputOnly.files "missing" = none ∧
      main (fun _ => 0) ["boffset", "5", "missing", "new"] outputOnly
        = .ok { code := 1, stderr := [.inputFileError], fs := outputOnly,
                opens := [("missing", .rb)] } :=
  ⟨by decide, rfl,
    missing_input_fails (fun _ => 0) "boffset" "5" "missing" "new" outputOnly (by decide)
      (Or.inl rfl)⟩

/-- C10 (counterexample to the formula as stated): on the input `01 .. 08` with
offset `-3` the output is `00 00 00 01 02 03 04 05`. At index 0 the claim reads
`input[0 - offset] = input[3] = 04`, in range, while the output byte is `00`. -/
theorem formula_sign_counterexample :
    outputOf (main (fun _ => 0) ["boffset", "-3", "in", "out"]
        (FS.single "in" [1, 2, 3, 4, 5, 6, 7, 8])) "out" = some [0, 0, 0, 1, 2, 3, 4, 5] ∧
      atoll "-3" = -3 ∧ (0 : Int) ≤ 0 - atoll "-3" ∧ 0 - atoll "-3" < 8 ∧
      ([1, 2, 3, 4, 5, 6, 7, 8] : List Byte)[(0 - atoll "-3").toNat]? = some 4 ∧
      ([0, 0, 0, 1, 2, 3, 4, 5] : List Byte)[0]? = some 0 :=
  ⟨rfl, by decide, by decide, by decide, by decide, rfl⟩

/-- C10 (amended): the input is readable with `n` bytes and `0 < |offset| < n`;
when the offset is negative, `|offset| < 2^31` as well. The output of a run that
exits 0 has `n` bytes, and for every index `j < n`:
`output[j] = input[j + offset]` when `0 <= j + offset < n`, and `output[j] = 0`
when `j + offset < 0`. (Nothing is said of the indices with `j + offset >= n`,
the last `offset` bytes of a positive shift.) -/
theorem output_byte_formula (g : Nat → Byte) (prog a1 i o : String) (fs : FS)
    (inp : List Byte) (r : Outcome) (hin : fopen_rb fs i = some inp)
    (h0 : 0 < (atoll a1).natAbs) (hlt : (atoll a1).natAbs < inp.length)
    (h31 : atoll a1 < 0 → (atoll a1).natAbs < 2 ^ 31)
    (hr : main g [prog, a1, i, o] fs = .ok r) (hc : r.code = 0) :
    ∃ out, (r.fs.files o).map File.content = some out ∧ out.length = inp.length ∧
      ∀ j : Nat, j < inp.length →
        (0 ≤ (j : Int) + atoll a1 → (j : Int) + atoll a1 < inp.length →
          out[j]? = inp[((j : Int) + atoll a1).toNat]?) ∧
        ((j : Int) + atoll a1 < 0 → out[j]? = some 0) := by
  have hne : atoll a1 ≠ 0 := by
    intro e; rw [e] at h0; simp at h0
  obtain ⟨inp2, a, out, e1, e2, e3, e4, e5⟩ :=
    mainB_success BLOCKSIZE g prog a1 i o fs r hne hr hc
  rw [hin] at e1
  cases e1
  rcases lt_or_gt_of_ne hne with hneg | hpos
  · rw [abs_of_small _ (h31 hneg)] at e2
    cases e2
    rw [shift_neg BLOCKSIZE g inp (atoll a1) _ (by decide) hneg (by omega) e3] at e4
    injection e4 with e4
    subst e4
    have hk : max ((atoll a1).natAbs : Int).toNat 1 = (atoll a1).natAbs := by
      rw [Int.toNat_natCast]; omega
    rw [hk] at e5
    refine ⟨_, e5, ?_, ?_⟩
    · simp only [List.length_append, List.length_replicate, List.length_take]
      omega
    · intro j hj
      constructor
      · intro h1 h2
        have hjk : (atoll a1).natAbs ≤ j := by omega
        have ht : ((j : Int) + atoll a1).toNat = j - (atoll a1).natAbs := by omega
        rw [List.getElem?_append_right (by simpa using hjk), List.length_replicate,
          List.getElem?_take, if_pos (by omega), ht]
      · intro h1
        rw [List.getElem?_append_left (by rw [List.length_replicate]; omega),
          List.getElem?_replicate, if_pos (by omega)]
  · obtain ⟨X, f1, f2⟩ := shift_pos BLOCKSIZE g inp (atoll a1) a (by decide) hpos (by omega)
    rw [f1] at e4
    injection e4 with e4
    subst e4
    refine ⟨_, e5, f2, ?_⟩
    intro j hj
    constructor
    · intro h1 h2
      have ht : ((j : Int) + atoll a1).toNat = (atoll a1).toNat + j := by omega
      rw [List.getElem?_append_left (by rw [List.length_drop]; omega),
        List.getElem?_drop, ht]
    · intro h1
      omega

/-- Witness of C10 (amended): the input `01 .. 08` with offset `-3`. -/
theorem output_byte_formula_witness :
    codeOf (main (fun _ => 0) ["boffset", "-3", "in", "out"]
        (FS.single "in" [1, 2, 3, 4, 5, 6, 7, 8])) = some 0 ∧
    (atoll "-3" < 0 → (atoll "-3").natAbs < 2 ^ 31) ∧
    ∃ out, Option.map File.content ((((FS.single "in" [1, 2, 3, 4, 5, 6, 7, 8]).store "out"
        ⟨[], true, true⟩).flush "out" [0, 0, 0, 1, 2, 3, 4, 5]).files "out") = some out ∧
      out.length = ([1, 2, 3, 4, 5, 6, 7, 8] : List Byte).length ∧
      ∀ j : Nat, j < ([1, 2, 3, 4, 5, 6, 7, 8] : List Byte).length →
        (0 ≤ (j : Int) + atoll "-3" → (j : Int) + atoll "-3"
            < ([1, 2, 3, 4, 5, 6, 7, 8] : List Byte).length →
          out[j]? = ([1, 2, 3, 4, 5, 6, 7, 8] : List Byte)[((j : Int) + atoll "-3").toNat]?) ∧
        ((j : Int) + atoll "-3" < 0 → out[j]? = some 0) :=
  ⟨rfl, fun _ => by decide,
    output_byte_formula (fun _ => 0) "boffset" "-3" "in" "out"
    (FS.single "in" [1, 2, 3, 4, 5, 6, 7, 8]) [1, 2, 3, 4, 5, 6, 7, 8]
    { code := 0, stderr := [.usingOffset (atoll "-3")],
      fs := ((FS.single "in" [1, 2, 3, 4, 5, 6, 7, 8]).store "out" ⟨[], true, true⟩).flush "out"
        [0, 0, 0, 1, 2, 3, 4, 5],
      opens := [("in", .rb), ("out", .rb), ("out", .wb)] }
    rfl (by decide) (by decide) (fun _ => by decide) rfl rfl⟩

/-- C11 (at the failing input): on the input `01 02 03 04 05` with offset `+1`
the output depends on the block size. With `B = 3` the last block read is `05`
alone, the buffer then holds `05 03 04`, and the loop writes
`fsize - ftell(fo) = 2` bytes of it: the output ends in `05 03`. With `B = 4`
the loop writes the 4 bytes read and the end padding writes `00`. With the
block size of the program the last byte is byte 4 of the initial buffer. -/
theorem block_size_changes_output (g : Nat → Byte) :
    outputOf (mainB 3 g ["boffset", "1", "in", "out"] (FS.single "in" [1, 2, 3, 4, 5])) "out"
        = some [2, 3, 4, 5, 3] ∧
      outputOf (mainB 4 g ["boffset", "1", "in", "out"] (FS.single "in" [1, 2, 3, 4, 5])) "out"
        = some [2, 3, 4, 5, 0] ∧
      outputOf (main g ["boffset", "1", "in", "out"] (FS.single "in" [1, 2, 3, 4, 5])) "out"
        = some [2, 3, 4, 5, g 4] :=
  ⟨rfl, rfl, rfl⟩

/-- C12 (at the failing input): the input has 10 bytes, a readable file is at
the output path and the offset argument is `4294967297`, at least the input
size. The run exits 1 with `Fatal: Output file exists`, the outcome of check
(5), and not with the offset diagnostic of check (4): `abs` sees the `int`
1. -/
theorem too_large_offset_reports_output_exists (g : Nat → Byte) :
    fopen_rb inputAndOutput "in" = some [1, 2, 3, 4, 5, 6, 7, 8, 9, 10] ∧
      (inputAndOutput.files "out").isSome = true ∧
      (10 : Int) ≤ (atoll "4294967297").natAbs ∧
      codeOf (main g ["boffset", "4294967297", "in", "out"] inputAndOutput) = some 1 ∧
      stderrOf (main g ["boffset", "4294967297", "in", "out"] inputAndOutput)
        = some [.outputFileExists] ∧
      opensOf (main g ["boffset", "4294967297", "in", "out"] inputAndOutput)
        = some [("in", .rb), ("out", .rb)] :=
  ⟨rfl, rfl, by decide, rfl, rfl, rfl⟩

/-- C15 (at the failing input): on the input `01 .. 08` with offset `+3`, two
runs that differ only in the initial content of `buffer` (all `00`, all `ff`)
leave different output files: the last three bytes of the output are bytes 5,
6 and 7 of the buffer, which the read did not fill. -/
theorem output_depends_on_buffer :
    outputOf (main (fun _ => 0) ["boffset", "+3", "in", "out"]
        (FS.single "in" [1, 2, 3, 4, 5, 6, 7, 8])) "out" = some [4, 5, 6, 7, 8, 0, 0, 0] ∧
      outputOf (main (fun _ => 255) ["boffset", "+3", "in", "out"]
        (FS.single "in" [1, 2, 3, 4, 5, 6, 7, 8])) "out"
        = some [4, 5, 6, 7, 8, 255, 255, 255] :=
  ⟨rfl, rfl⟩

/-! ## The states of the copy loop -/

/-- The shift in terms of the state at loop entry. -/
theorem shift_eq (B : Nat) (g : Nat → Byte) (inp : List Byte) (offset a : Int) :
    shift B g inp offset a =
      match copyLoop B inp inp.length (inp.length + 1) (loopEntry B g offset a) with
      | .error e => .error e
      | .ok s2 =>
        if s2.opos < inp.length then
          .ok (fwrite 1 { memset B s2 with
            opos := fseek (memset B s2).opos ((inp.length : Int) - 1) }).out
        else .ok s2.out := rfl

theorem loopStates_head (B : Nat) (inp : List Byte) (n fuel : Nat) (s : State) :
    (loopStates B inp n fuel s).head? = some s := by
  cases fuel with
  | zero => rfl
  | succ f =>
    unfold loopStates
    simp only
    split
    · split
      · split <;> rfl
      · rfl
    · rfl

/-- The last state of `loopStates` is the state in which `copyLoop` ends. -/
theorem loopStates_getLast (B : Nat) (inp : List Byte) (n : Nat) :
    ∀ fuel s s2, copyLoop B inp n fuel s = .ok s2 →
      (loopStates B inp n fuel s).getLast? = some s2 := by
  intro fuel
  induction fuel with
  | zero => intro s s2 h; simp [copyLoop] at h
  | succ f ih =>
    intro s s2 h
    unfold copyLoop at h
    unfold loopStates
    simp only at h ⊢
    split
    · rename_i h1
      rw [if_pos h1] at h
      split
      · rename_i h2
        rw [if_pos h2] at h
        split
        · rename_i h3
          rw [if_pos h3] at h
          exact absurd h (by simp)
        · rename_i h3
          rw [if_neg h3] at h
          have := ih _ _ h
          rw [List.getLast?_cons, this]
          rfl
      · rename_i h2
        rw [if_neg h2] at h
        have := ih _ _ h
        rw [List.getLast?_cons, this]
        rfl
    · rename_i h1
      rw [if_neg h1] at h
      cases h
      rfl

/-- The write position never passes `n`; an iteration writes at most what is
left up to `n`, and nothing once the position is `n`. -/
theorem loopStates_budget (B : Nat) (inp : List Byte) (n : Nat) :
    ∀ fuel s, s.opos ≤ n →
      (∀ t ∈ loopStates B inp n fuel s, t.opos ≤ n) ∧
        List.Chain' (fun s t : State => s.opos ≤ t.opos ∧ t.opos - s.opos ≤ n - s.opos ∧
          (s.opos = n → t.opos = s.opos ∧ t.out = s.out)) (loopStates B inp n fuel s) := by
  intro fuel
  induction fuel with
  | zero =>
    intro s hs
    simp [loopStates, hs]
  | succ f ih =>
    intro s hs
    have hd : ((inp.drop s.ipos).take B).length ≤ B := by
      rw [List.length_take]; omega
    unfold loopStates
    simp only
    split
    · rename_i h1
      split
      · rename_i h2
        split
        · simp [hs]
        · rename_i h3
          have hle : (fwrite (n - (fread inp B s).2.opos) (fread inp B s).2).opos ≤ n := by
            simp only [fwrite, fread, List.length_take] at h3 ⊢
            omega
          obtain ⟨i1, i2⟩ := ih _ hle
          refine ⟨?_, ?_⟩
          · intro t ht
            rcases List.mem_cons.mp ht with e | ht
            · rw [e]; exact hs
            · exact i1 t ht
          · rw [List.chain'_cons']
            refine ⟨?_, i2⟩
            intro y hy
            rw [loopStates_head] at hy
            cases hy
            refine ⟨?_, ?_, ?_⟩
            · simp only [fwrite, fread]; omega
            · simp only [fwrite, fread, List.length_take] at hle ⊢; omega
            · intro e
              have e0 : n - (fread inp B s).2.opos = 0 := by
                simp only [fread]; omega
              rw [e0]
              simp [fwrite, fread, writeAt]
      · rename_i h2
        have hle : (fwrite (fread inp B s).1 (fread inp B s).2).opos ≤ n := by
          simp only [fwrite, fread, List.length_take] at h2 ⊢
          omega
        obtain ⟨i1, i2⟩ := ih _ hle
        refine ⟨?_, ?_⟩
        · intro t ht
          rcases List.mem_cons.mp ht with e | ht
          · rw [e]; exact hs
          · exact i1 t ht
        · rw [List.chain'_cons']
          refine ⟨?_, i2⟩
          intro y hy
          rw [loopStates_head] at hy
          cases hy
          refine ⟨?_, ?_, ?_⟩
          · simp only [fwrite, fread]; omega
          · simp only [fwrite, fread, List.length_take] at hle ⊢; omega
          · intro e
            exfalso
            simp only [fread, List.length_take, List.length_drop] at h1 h2
            omega
    · simp [hs]

/-- Loop entry for a negative offset: the start padding is written, `max a 1`
zero bytes, and the buffer is zero. -/
theorem loopEntry_neg (B : Nat) (g : Nat → Byte) (offset a : Int) (hB : 0 < B)
    (hneg : offset < 0) :
    loopEntry B g offset a
      = { ipos := 0, out := List.replicate (max a.toNat 1) 0, opos := max a.toNat 1,
          buffer := List.replicate B 0 } := by
  obtain ⟨b, rfl⟩ : ∃ b, B = b + 1 := ⟨B - 1, by omega⟩
  have hs : fseek 0 (a - 1) + 1 = max a.toNat 1 := by
    unfold fseek
    split <;> omega
  simp only [loopEntry, memset, if_pos hneg, fwrite, List.replicate_succ, List.take_succ_cons,
    List.take_zero, List.length_singleton]
  rw [writeAt_gap _ _ _ (by simp), hs]
  simp only [List.length_nil, Nat.sub_zero, List.nil_append]
  rw [← hs, ← List.replicate_succ', List.replicate_succ]

/-- Loop entry for a non-negative offset: nothing is written yet. -/
theorem loopEntry_pos (B : Nat) (g : Nat → Byte) (offset a : Int) (hpos : ¬ offset < 0) :
    (loopEntry B g offset a).opos = 0 ∧ (loopEntry B g offset a).out = [] := by
  simp only [loopEntry, if_neg hpos, and_self]

/-- C13: the input has `n` bytes, `0 < |offset| < n`, and `a` is the value of
`abs(offset)` with which the size check was passed. The copy loop, entered as
`main` enters it, ends in a state `s2` which is the last of the states at its
loop test; in each of these states the write position is at most `n`; and
from one to the next the position does not decrease, the bytes written are at
most `n` minus the position, and once the position is `n` nothing is written
(position and file stay as they are). -/
theorem write_budget_invariant (g : Nat → Byte) (inp : List Byte) (offset a : Int)
    (h0 : 0 < offset.natAbs) (hlt : offset.natAbs < inp.length) (habs : abs offset = some a) :
    (∃ s2, copyLoop BLOCKSIZE inp inp.length (inp.length + 1) (loopEntry BLOCKSIZE g offset a)
          = .ok s2 ∧
        (loopStates BLOCKSIZE inp inp.length (inp.length + 1)
          (loopEntry BLOCKSIZE g offset a)).getLast? = some s2 ∧
        shift BLOCKSIZE g inp offset a =
          if s2.opos < inp.length then
            .ok (fwrite 1 { memset BLOCKSIZE s2 with
              opos := fseek (memset BLOCKSIZE s2).opos ((inp.length : Int) - 1) }).out
          else .ok s2.out) ∧
      (∀ s ∈ loopStates BLOCKSIZE inp inp.length (inp.length + 1)
          (loopEntry BLOCKSIZE g offset a), s.opos ≤ inp.length) ∧
      List.Chain' (fun s t : State => s.opos ≤ t.opos ∧
          t.opos - s.opos ≤ inp.length - s.opos ∧
          (s.opos = inp.length → t.opos = s.opos ∧ t.out = s.out))
        (loopStates BLOCKSIZE inp inp.length (inp.length + 1)
          (loopEntry BLOCKSIZE g offset a)) := by
  obtain ⟨b1, _, b3⟩ := abs_bound _ _ habs
  have hne : offset ≠ 0 := by
    intro e; rw [e] at h0; simp at h0
  have hentry : (loopEntry BLOCKSIZE g offset a).opos ≤ inp.length := by
    by_cases hneg : offset < 0
    · rw [loopEntry_neg BLOCKSIZE g offset a (by decide) hneg]
      show max a.toNat 1 ≤ inp.length
      omega
    · rw [(loopEntry_pos BLOCKSIZE g offset a hneg).1]
      omega
  obtain ⟨out, hs, _⟩ := shift_length BLOCKSIZE g inp offset a (by decide) hne (by omega) b1
    (by omega)
  obtain ⟨i1, i2⟩ := loopStates_budget BLOCKSIZE inp inp.length (inp.length + 1) _ hentry
  refine ⟨?_, i1, i2⟩
  rw [shift_eq] at hs
  cases hc : copyLoop BLOCKSIZE inp inp.length (inp.length + 1) (loopEntry BLOCKSIZE g offset a)
    with
  | error e => rw [hc] at hs; exact absurd hs (by simp)
  | ok s2 => exact ⟨s2, rfl, loopStates_getLast _ _ _ _ _ _ hc, by rw [shift_eq, hc]⟩

/-- Witness of C13: the input `01 .. 08` with offset `-3`. -/
theorem write_budget_invariant_witness :
    abs (-3) = some 3 ∧
      loopStates BLOCKSIZE [1, 2, 3, 4, 5, 6, 7, 8] 8 9 (loopEntry BLOCKSIZE (fun _ => 0) (-3) 3)
        = [⟨0, [0, 0, 0], 3, List.replicate BLOCKSIZE 0⟩,
           ⟨8, [0, 0, 0, 1, 2, 3, 4, 5], 8, [1, 2, 3, 4, 5, 6, 7, 8]
              ++ (List.replicate BLOCKSIZE 0).drop 8⟩] ∧
      ((∃ s2, copyLoop BLOCKSIZE [1, 2, 3, 4, 5, 6, 7, 8] ([1, 2, 3, 4, 5, 6, 7, 8] : List Byte).length
            (([1, 2, 3, 4, 5, 6, 7, 8] : List Byte).length + 1)
            (loopEntry BLOCKSIZE (fun _ => 0) (-3) 3) = .ok s2 ∧
          (loopStates BLOCKSIZE [1, 2, 3, 4, 5, 6, 7, 8] ([1, 2, 3, 4, 5, 6, 7, 8] : List Byte).length
            (([1, 2, 3, 4, 5, 6, 7, 8] : List Byte).length + 1)
            (loopEntry BLOCKSIZE (fun _ => 0) (-3) 3)).getLast? = some s2 ∧
          shift BLOCKSIZE (fun _ => 0) [1, 2, 3, 4, 5, 6, 7, 8] (-3) 3 =
            if s2.opos < ([1, 2, 3, 4, 5, 6, 7, 8] : List Byte).length then
              .ok (fwrite 1 { memset BLOCKSIZE s2 with
                opos := fseek (memset BLOCKSIZE s2).opos
                  ((([1, 2, 3, 4, 5, 6, 7, 8] : List Byte).length : Int) - 1) }).out
            else .ok s2.out) ∧
        (∀ s ∈ loopStates BLOCKSIZE [1, 2, 3, 4, 5, 6, 7, 8]
            ([1, 2, 3, 4, 5, 6, 7, 8] : List Byte).length
            (([1, 2, 3, 4, 5, 6, 7, 8] : List Byte).length + 1)
            (loopEntry BLOCKSIZE (fun _ => 0) (-3) 3),
          s.opos ≤ ([1, 2, 3, 4, 5, 6, 7, 8] : List Byte).length) ∧
        List.Chain' (fun s t : State => s.opos ≤ t.opos ∧
            t.opos - s.opos ≤ ([1, 2, 3, 4, 5, 6, 7, 8] : List Byte).length - s.opos ∧
            (s.opos = ([1, 2, 3, 4, 5, 6, 7, 8] : List Byte).length →
              t.opos = s.opos ∧ t.out = s.out))
          (loopStates BLOCKSIZE [1, 2, 3, 4, 5, 6, 7, 8]
            ([1, 2, 3, 4, 5, 6, 7, 8] : List Byte).length
            (([1, 2, 3, 4, 5, 6, 7, 8] : List Byte).length + 1)
            (loopEntry BLOCKSIZE (fun _ => 0) (-3) 3))) :=
  ⟨by decide, rfl,
    write_budget_invariant (fun _ => 0) [1, 2, 3, 4, 5, 6, 7, 8] (-3) 3 (by decide) (by decide)
      (by decide)⟩

/-- A run with a readable input, a free and creatable output path, an offset
with `0 < |offset| < n` and a defined `abs(offset)` exits 0. -/
theorem mainB_runs (B : Nat) (g : Nat → Byte) (prog a1 i o : String) (fs : FS)
    (inp : List Byte) (hB : 0 < B) (hin : fopen_rb fs i = some inp) (hout : fs.files o = none)
    (hc : fs.creatable o = true) (h0 : 0 < (atoll a1).natAbs)
    (hlt : (atoll a1).natAbs < inp.length) (hmin : toInt32 (atoll a1) ≠ INT_MIN) :
    ∃ r, mainB B g [prog, a1, i, o] fs = .ok r ∧ r.code = 0 := by
  have hne : atoll a1 ≠ 0 := by
    intro e; rw [e] at h0; simp at h0
  obtain ⟨a, ha⟩ := abs_isSome _ hmin
  obtain ⟨b1, _, b3⟩ := abs_bound _ _ ha
  have hlt2 : a < (inp.length : Int) := by omega
  obtain ⟨out, f1, _⟩ := shift_length B g inp (atoll a1) a hB hne (by omega) b1 hlt2
  refine ⟨{ code := 0, stderr := [.usingOffset (atoll a1)],
            fs := (fs.store o ⟨[], true, true⟩).flush o out,
            opens := [(i, .rb), (o, .rb), (o, .wb)] }, ?_, rfl⟩
  rw [mainB_checks_passed B g prog a1 i o fs _ inp a hne hin ha hlt2
    (fopen_rb_of_none fs o hout) (fopen_wb_fresh fs o hout hc), f1]

/-- C14: the input is readable with `n` bytes and the offset `k` is positive
with `k < n`. Whatever the initial content `g` of the buffer, the output of a
run that exits 0 has `n` bytes and its first `n - k` bytes are `input[k..n)`;
and the run does exit 0 when nothing is at the output path, the path can be
created and `abs(offset)` is defined. -/
theorem positive_shift_data_exact (g : Nat → Byte) (prog a1 i o : String) (fs : FS)
    (inp : List Byte) (hin : fopen_rb fs i = some inp) (hpos : 0 < atoll a1)
    (hlt : atoll a1 < inp.length) :
    (∀ r, main g [prog, a1, i, o] fs = .ok r → r.code = 0 →
        ∃ out, (r.fs.files o).map File.content = some out ∧ out.length = inp.length ∧
          out.take (inp.length - (atoll a1).toNat) = inp.drop (atoll a1).toNat) ∧
      (fs.files o = none → fs.creatable o = true → toInt32 (atoll a1) ≠ INT_MIN →
        ∃ r, main g [prog, a1, i, o] fs = .ok r ∧ r.code = 0) := by
  constructor
  · intro r hr hc
    obtain ⟨inp2, a, out, e1, _, _, e4, e5⟩ :=
      mainB_success BLOCKSIZE g prog a1 i o fs r (ne_of_gt hpos) hr hc
    rw [hin] at e1
    cases e1
    obtain ⟨X, f1, f2⟩ := shift_pos BLOCKSIZE g inp (atoll a1) a (by decide) hpos hlt
    rw [f1] at e4
    injection e4 with e4
    subst e4
    refine ⟨_, e5, f2, ?_⟩
    have hl : (inp.drop (atoll a1).toNat).length = inp.length - (atoll a1).toNat :=
      List.length_drop _ _
    rw [← hl, List.take_left']
    rfl
  · intro hout hc hmin
    exact mainB_runs BLOCKSIZE g prog a1 i o fs inp (by decide) hin hout hc (by omega)
      (by omega) hmin

/-- Witness of C14: the input `01 .. 08` with offset `+3`. -/
theorem positive_shift_data_exact_witness :
    outputOf (main (fun _ => 255) ["boffset", "+3", "in", "out"]
        (FS.single "in" [1, 2, 3, 4, 5, 6, 7, 8])) "out" = some [4, 5, 6, 7, 8, 255, 255, 255] ∧
      ((∀ r, main (fun _ => 255) ["boffset", "+3", "in", "out"]
            (FS.single "in" [1, 2, 3, 4, 5, 6, 7, 8]) = .ok r → r.code = 0 →
          ∃ out, (r.fs.files "out").map File.content = some out ∧
            out.length = ([1, 2, 3, 4, 5, 6, 7, 8] : List Byte).length ∧
            out.take (([1, 2, 3, 4, 5, 6, 7, 8] : List Byte).length - (atoll "+3").toNat)
              = ([1, 2, 3, 4, 5, 6, 7, 8] : List Byte).drop (atoll "+3").toNat) ∧
        ((FS.single "in" [1, 2, 3, 4, 5, 6, 7, 8]).files "out" = none →
          (FS.single "in" [1, 2, 3, 4, 5, 6, 7, 8]).creatable "out" = true →
          toInt32 (atoll "+3") ≠ INT_MIN →
          ∃ r, main (fun _ => 255) ["boffset", "+3", "in", "out"]
            (FS.single "in" [1, 2, 3, 4, 5, 6, 7, 8]) = .ok r ∧ r.code = 0)) :=
  ⟨rfl,
    positive_shift_data_exact (fun _ => 255) "boffset" "+3" "in" "out"
      (FS.single "in" [1, 2, 3, 4, 5, 6, 7, 8]) [1, 2, 3, 4, 5, 6, 7, 8] rfl (by decide)
      (by decide)⟩

/-- C16: the offset is `-k` with `0 < k < n` and `k < 2^31`, the input is
readable with `n` bytes, nothing is at the output path and it can be created.
The loop is entered with exactly `k` zero bytes written (the start padding),
the run exits 0, and the output is `k` zero bytes followed by
`input[0..n-k)`. -/
theorem negative_shift_within_int (g : Nat → Byte) (prog a1 i o : String) (fs : FS)
    (inp : List Byte) (w : Bool) (hneg : atoll a1 < 0)
    (hlt : (atoll a1).natAbs < inp.length) (h31 : (atoll a1).natAbs < 2 ^ 31)
    (hin : fs.files i = some ⟨inp, true, w⟩) (hout : fs.files o = none)
    (hc : fs.creatable o = true) :
    abs (atoll a1) = some ((atoll a1).natAbs : Int) ∧
      (loopEntry BLOCKSIZE g (atoll a1) (atoll a1).natAbs).out
        = List.replicate (atoll a1).natAbs 0 ∧
      (loopEntry BLOCKSIZE g (atoll a1) (atoll a1).natAbs).opos = (atoll a1).natAbs ∧
      main g [prog, a1, i, o] fs =
        .ok { code := 0, stderr := [.usingOffset (atoll a1)],
              fs := (fs.store o ⟨[], true, true⟩).flush o
                (List.replicate (atoll a1).natAbs 0
                  ++ inp.take (inp.length - (atoll a1).natAbs)),
              opens := [(i, .rb), (o, .rb), (o, .wb)] } := by
  have hk : max ((atoll a1).natAbs : Int).toNat 1 = (atoll a1).natAbs := by
    rw [Int.toNat_natCast]; omega
  have he := loopEntry_neg BLOCKSIZE g (atoll a1) (atoll a1).natAbs (by decide) hneg
  rw [hk] at he
  have hs := shift_neg BLOCKSIZE g inp (atoll a1) (atoll a1).natAbs (by decide) hneg
    (by omega) (by omega)
  rw [hk] at hs
  refine ⟨abs_of_small _ h31, by rw [he], by rw [he], ?_⟩
  rw [main_eq]
  exact mainB_fresh BLOCKSIZE g prog a1 i o fs inp _ w _ (ne_of_lt hneg) hin
    (abs_of_small _ h31) (by omega) hout hc hs

/-- Witness of C16: the input `01 .. 08` with offset `-3`. -/
theorem negative_shift_within_int_witness :
    outputOf (main (fun _ => 255) ["boffset", "-3", "in", "out"]
        (FS.single "in" [1, 2, 3, 4, 5, 6, 7, 8])) "out" = some [0, 0, 0, 1, 2, 3, 4, 5] ∧
    abs (atoll "-3") = some ((atoll "-3").natAbs : Int) ∧
      (loopEntry BLOCKSIZE (fun _ => 255) (atoll "-3") (atoll "-3").natAbs).out
        = List.replicate (atoll "-3").natAbs 0 ∧
      (loopEntry BLOCKSIZE (fun _ => 255) (atoll "-3") (atoll "-3").natAbs).opos
        = (atoll "-3").natAbs ∧
      main (fun _ => 255) ["boffset", "-3", "in", "out"] (FS.single "in" [1, 2, 3, 4, 5, 6, 7, 8]) =
        .ok { code := 0, stderr := [.usingOffset (atoll "-3")],
              fs := ((FS.single "in" [1, 2, 3, 4, 5, 6, 7, 8]).store "out" ⟨[], true, true⟩).flush
                "out" (List.replicate (atoll "-3").natAbs 0
                  ++ ([1, 2, 3, 4, 5, 6, 7, 8] : List Byte).take
                    (([1, 2, 3, 4, 5, 6, 7, 8] : List Byte).length - (atoll "-3").natAbs)),
              opens := [("in", .rb), ("out", .rb), ("out", .wb)] } :=
  ⟨rfl, negative_shift_within_int (fun _ => 255) "boffset" "-3" "in" "out"
    (FS.single "in" [1, 2, 3, 4, 5, 6, 7, 8]) [1, 2, 3, 4, 5, 6, 7, 8] true (by decide)
    (by decide) (by decide) rfl rfl rfl⟩

/-- The conversion to `int` has period `2^32`, and so has `abs`. -/
theorem abs_periodic (x : Int) : abs (x + 2 ^ 32) = abs x := by
  have h : toInt32 (x + 2 ^ 32) = toInt32 x := by
    unfold toInt32
    omega
  unfold abs
  rw [h]

/-- C17: `abs` is taken on the offset reduced modulo `2^32` (it has period
`2^32`) and its value is below `2^31`. For an offset with
`0 < |offset| < 2^31` that value is `|offset|`, and a run on a readable input
of `n` bytes ends with `Fatal: Offset >= input file size` (exit 1, no other
file opened) if and only if `|offset| >= n`. -/
theorem size_check_uses_int_abs (g : Nat → Byte) (prog a1 i o : String) (fs : FS)
    (inp : List Byte) (hin : fopen_rb fs i = some inp) (h0 : 0 < (atoll a1).natAbs)
    (h31 : (atoll a1).natAbs < 2 ^ 31) :
    (∀ x : Int, abs (x + 2 ^ 32) = abs x) ∧ (∀ x a : Int, abs x = some a → a < 2 ^ 31) ∧
      abs (atoll a1) = some ((atoll a1).natAbs : Int) ∧
      (stderrOf (main g [prog, a1, i, o] fs) = some [.offsetTooLarge]
        ↔ inp.length ≤ (atoll a1).natAbs) ∧
      (inp.length ≤ (atoll a1).natAbs →
        main g [prog, a1, i, o] fs
          = .ok { code := 1, stderr := [.offsetTooLarge], fs := fs, opens := [(i, .rb)] }) := by
  have hne : atoll a1 ≠ 0 := by
    intro e; rw [e] at h0; simp at h0
  have habs := abs_of_small _ h31
  have hfail : inp.length ≤ (atoll a1).natAbs →
      main g [prog, a1, i, o] fs
        = .ok { code := 1, stderr := [.offsetTooLarge], fs := fs, opens := [(i, .rb)] } := by
    intro hle
    rw [main_eq]
    exact mainB_too_large BLOCKSIZE g prog a1 i o fs inp _ hne hin habs (by exact_mod_cast hle)
  refine ⟨abs_periodic, fun x a h => (abs_bound x a h).2.1, habs, ⟨?_, ?_⟩, hfail⟩
  · intro h
    by_contra hlt
    have hlt2 : ¬ ((atoll a1).natAbs : Int) ≥ (inp.length : Int) := by omega
    rw [main_eq] at h
    unfold mainB at h
    simp only [if_neg hne, hin, habs, if_neg hlt2] at h
    split at h
    · simp [stderrOf] at h
    · split at h
      · simp [stderrOf] at h
      · split at h <;> simp [stderrOf] at h
  · intro hle
    rw [hfail hle]
    rfl

/-- Witness of C17: offset `10` on an input of 10 bytes is rejected, offset
`-3` is not. -/
theorem size_check_uses_int_abs_witness :
    stderrOf (main (fun _ => 0) ["boffset", "-3", "in", "out"] inputAndOutput)
        = some [.outputFileExists] ∧
      ((∀ x : Int, abs (x + 2 ^ 32) = abs x) ∧ (∀ x a : Int, abs x = some a → a < 2 ^ 31) ∧
        abs (atoll "10") = some ((atoll "10").natAbs : Int) ∧
        (stderrOf (main (fun _ => 0) ["boffset", "10", "in", "out"] inputAndOutput)
            = some [.offsetTooLarge]
          ↔ ([1, 2, 3, 4, 5, 6, 7, 8, 9, 10] : List Byte).length ≤ (atoll "10").natAbs) ∧
        (([1, 2, 3, 4, 5, 6, 7, 8, 9, 10] : List Byte).length ≤ (atoll "10").natAbs →
          main (fun _ => 0) ["boffset", "10", "in", "out"] inputAndOutput
            = .ok { code := 1, stderr := [.offsetTooLarge], fs := inputAndOutput,
                    opens := [("in", .rb)] })) :=
  ⟨rfl,
    size_check_uses_int_abs (fun _ => 0) "boffset" "10" "in" "out" inputAndOutput
      [1, 2, 3, 4, 5, 6, 7, 8, 9, 10] rfl (by decide) (by decide)⟩

/-- Without a digit at the digit position `atoll` returns 0. -/
theorem atoll_no_digit (s : String) (h : ∀ c ∈ (digitPosition s).head?, isdigit c = false) :
    atoll s = 0 := by
  have hd : ∀ cs : List Char, (∀ c ∈ cs.head?, isdigit c = false) → digitsValue cs 0 = 0 := by
    intro cs hcs
    cases cs with
    | nil => rfl
    | cons c t =>
      have := hcs c (by simp)
      simp [digitsValue, this]
  unfold digitPosition at h
  unfold atoll
  split at h
  · rename_i cs e
    simp only [hd cs h]
    decide
  · rename_i cs e
    simp only [hd cs h]
    decide
  · simp only [hd _ h]
    decide

/-- C18: when the offset argument has no digit where `atoll` reads digits
(after the leading white space and one optional sign), `atoll` gives 0 and the
run takes the zero-offset path: exit 0 with `Zero offset: Nothing to do`, no
`fopen` call, the file system as before. -/
theorem no_digit_offset_is_zero (g : Nat → Byte) (prog a1 i o : String) (fs : FS)
    (h : ∀ c ∈ (digitPosition a1).head?, isdigit c = false) :
    atoll a1 = 0 ∧
      main g [prog, a1, i, o] fs
        = .ok { code := 0, stderr := [.zeroOffset], fs := fs, opens := [] } :=
  ⟨atoll_no_digit a1 h, mainB_zero BLOCKSIZE g prog a1 i o fs (atoll_no_digit a1 h)⟩

/-- Witness of C18: the offset arguments `abc`, `+`, `-` and the empty string,
with a missing input and an existing output. -/
theorem no_digit_offset_is_zero_witness :
    (atoll "abc" = 0 ∧ main (fun _ => 0) ["boffset", "abc", "missing", "out"] outputOnly
        = .ok { code := 0, stderr := [.zeroOffset], fs := outputOnly, opens := [] }) ∧
      (atoll "+" = 0 ∧ main (fun _ => 0) ["boffset", "+", "missing", "out"] outputOnly
        = .ok { code := 0, stderr := [.zeroOffset], fs := outputOnly, opens := [] }) ∧
      (atoll "-" = 0 ∧ main (fun _ => 0) ["boffset", "-", "missing", "out"] outputOnly
        = .ok { code := 0, stderr := [.zeroOffset], fs := outputOnly, opens := [] }) ∧
      (atoll "" = 0 ∧ main (fun _ => 0) ["boffset", "", "missing", "out"] outputOnly
        = .ok { code := 0, stderr := [.zeroOffset], fs := outputOnly, opens := [] }) :=
  ⟨no_digit_offset_is_zero (fun _ => 0) "boffset" "abc" "missing" "out" outputOnly (by decide),
    no_digit_offset_is_zero (fun _ => 0) "boffset" "+" "missing" "out" outputOnly (by decide),
    no_digit_offset_is_zero (fun _ => 0) "boffset" "-" "missing" "out" outputOnly (by decide),
    no_digit_offset_is_zero (fun _ => 0) "boffset" "" "missing" "out" outputOnly (by decide)⟩

end Boffset
